import Mathlib

/-!
# Verification of the terminal wireframe renderer (`cube/3d_points.c`)
and of the menu navigation (`terminal-ui/menu.c`)

A shallow embedding of the frame buffer, the line rasteriser and the perspective
projector, followed by the properties proved about them.

Conventions of the embedding.

* C `int` values are mathematical integers (`Int`); the properties of `drawLine`
  are stated for arithmetic without overflow.
* The frame buffer `char screen[HEIGHT][WIDTH]` is a total map from a row index
  and a column index to a character.
* The `while (1)` loop of `drawLine` takes a fuel argument: `none` means that the
  fuel ran out before the loop reached its `break`.  Termination is proved by
  exhibiting a fuel bound from which the result no longer depends on the fuel.
* The loop also returns the list of points it handed to `drawPixel`, in order
  (a ghost trace; the buffer is threaded exactly as in the source).
* A `float` is the rational number it denotes.  Every `float` operation rounds its
  exact result to binary32, round to nearest with ties to even, one operation at a
  time (no fused multiply-add, no wider intermediate precision).
* Undefined behaviour (a `float` to `int` conversion out of range, an array index
  out of range) is `none`.
-/

namespace Cube

/-! ## Frame buffer -/

/-- Number of columns of the buffer (`#define WIDTH 80`). -/
abbrev WIDTH : Nat := 80

/-- Number of rows of the buffer (`#define HEIGHT 24`). -/
abbrev HEIGHT : Nat := 24

/-- The buffer `char screen[HEIGHT][WIDTH]`: row index first, column index second. -/
abbrev Screen : Type := Fin HEIGHT → Fin WIDTH → Char

/-- The array store `screen[i][j] = c`. -/
def Screen.store (screen : Screen) (i : Fin HEIGHT) (j : Fin WIDTH) (c : Char) : Screen :=
  Function.update screen i (Function.update (screen i) j c)

/-- Function `clearScreen`: the two nested `for` loops storing a space in every cell. -/
def clearScreen (screen : Screen) : Screen :=
  (List.finRange HEIGHT).foldl
    (fun scr i => (List.finRange WIDTH).foldl (fun scr2 j => scr2.store i j ' ') scr)
    screen

/-- Function `drawPixel`: the guarded store `screen[y][x] = c`. -/
def drawPixel (screen : Screen) (x y : Int) (c : Char) : Screen :=
  if h : x ≥ 0 ∧ x < WIDTH ∧ y ≥ 0 ∧ y < HEIGHT then
    screen.store ⟨y.toNat, by omega⟩ ⟨x.toNat, by omega⟩ c
  else screen

/-! ## Line rasteriser -/

/-- The C library function `abs` on integers (no overflow). -/
def cAbs (n : Int) : Int := if n < 0 then -n else n

/-- The mutable locals of the `drawLine` loop: the current point and the error term. -/
structure LineState where
  x : Int
  y : Int
  err : Int
deriving DecidableEq, Repr

/-- One pass through the loop body of `drawLine` after the `break` test:
both comparisons use the same `e2 = 2 * err`. -/
def lineStep (dx dy sx sy : Int) (s : LineState) : LineState :=
  let e2 := 2 * s.err
  let s1 : LineState := if e2 > -dy then { s with err := s.err - dy, x := s.x + sx } else s
  if e2 < dx then { s1 with err := s1.err + dx, y := s1.y + sy } else s1

/-- The `while (1)` loop of `drawLine`.  Each iteration plots the current point,
stops when it is the end point and otherwise updates the state.  The second
component of the result lists the points passed to `drawPixel`, in order. -/
def drawLineLoop (x1 y1 dx dy sx sy : Int) (c : Char) :
    Nat → Screen → LineState → Option (Screen × List (Int × Int))
  | 0, _, _ => none
  | fuel + 1, screen, s =>
    let screen1 := drawPixel screen s.x s.y c
    if s.x = x1 ∧ s.y = y1 then some (screen1, [(s.x, s.y)])
    else
      (drawLineLoop x1 y1 dx dy sx sy c fuel screen1 (lineStep dx dy sx sy s)).map
        (fun r => (r.1, (s.x, s.y) :: r.2))

/-- Function `drawLine`: the Bresenham set-up (`dx`, `dy`, `sx`, `sy`, `err`) followed
by the loop. -/
def drawLine (fuel : Nat) (screen : Screen) (x0 y0 x1 y1 : Int) (c : Char) :
    Option (Screen × List (Int × Int)) :=
  let dx := cAbs (x1 - x0)
  let dy := cAbs (y1 - y0)
  let sx : Int := if x0 < x1 then 1 else -1
  let sy : Int := if y0 < y1 then 1 else -1
  let err := dx - dy
  drawLineLoop x1 y1 dx dy sx sy c fuel screen ⟨x0, y0, err⟩

/-! ### Auxiliary notions used in the proofs about `drawLine` -/

/-- Successive `drawPixel` calls on a list of points. -/
def plotAll (c : Char) (pts : List (Int × Int)) (screen : Screen) : Screen :=
  pts.foldl (fun scr p => drawPixel scr p.1 p.2 c) screen

/-- The point held by a loop state. -/
def LineState.pos (s : LineState) : Int × Int := (s.x, s.y)

/-- The first `n + 1` points visited by iterating the loop body from `s`. -/
def lineTrace (dx dy sx sy : Int) (s : LineState) (n : Nat) : List (Int × Int) :=
  (List.range (n + 1)).map (fun k => ((lineStep dx dy sx sy)^[k] s).pos)

/-- Loop invariant of `drawLine` with `n` iterations left before the `break`.
The major axis is `x` when `dy ≤ dx` and `y` otherwise; `n` is the distance left
along the major axis, the error term is tied to the position, and it stays within
the window that forces a major-axis move at every iteration. -/
def LineInv (x1 y1 dx dy sx sy : Int) (n : Nat) (s : LineState) : Prop :=
  (0 ≤ dy ∧ dy ≤ dx ∧ 0 < dx ∧ x1 - s.x = n * sx ∧ (n : Int) ≤ dx ∧
      s.err = dx - dy + n * dy - ((y1 - s.y) * sy) * dx ∧
      dx - 2 * dy ≤ 2 * s.err ∧ 2 * s.err < 3 * dx - 2 * dy ∧ -dy < 2 * s.err) ∨
  (0 ≤ dx ∧ dx < dy ∧ y1 - s.y = n * sy ∧ (n : Int) ≤ dy ∧
      -s.err = dy - dx + n * dx - ((x1 - s.x) * sx) * dy ∧
      dy - 2 * dx ≤ -(2 * s.err) ∧ -(2 * s.err) < 3 * dy - 2 * dx ∧ 2 * s.err < dx)

/-- Two consecutive cells of an 8-connected path: different, and at most one
apart in each coordinate. -/
def Adjacent8 (p q : Int × Int) : Prop :=
  p ≠ q ∧ cAbs (q.1 - p.1) ≤ 1 ∧ cAbs (q.2 - p.2) ≤ 1

/-- The cell lies inside the 24x80 grid. -/
def InBounds (p : Int × Int) : Prop :=
  0 ≤ p.1 ∧ p.1 < WIDTH ∧ 0 ≤ p.2 ∧ p.2 < HEIGHT

instance (p : Int × Int) : Decidable (InBounds p) := by
  unfold InBounds; infer_instance

/-- The step direction chosen by `drawLine` along one axis: `(a < b) ? 1 : -1`. -/
def lineDir (a b : Int) : Int := if a < b then 1 else -1

/-- Number of loop iterations of `drawLine` before the one that breaks. -/
def lineLen (x0 y0 x1 y1 : Int) : Nat := (max (cAbs (x1 - x0)) (cAbs (y1 - y0))).toNat

/-- The state in which `drawLine` enters its loop. -/
def lineInit (x0 y0 x1 y1 : Int) : LineState := ⟨x0, y0, cAbs (x1 - x0) - cAbs (y1 - y0)⟩

/-- The state of the `drawLine` loop at the start of iteration `k` (counted from 0). -/
def lineStateAt (x0 y0 x1 y1 : Int) (k : Nat) : LineState :=
  (lineStep (cAbs (x1 - x0)) (cAbs (y1 - y0)) (lineDir x0 x1) (lineDir y0 y1))^[k]
    (lineInit x0 y0 x1 y1)

/-- The points visited by the `drawLine` loop up to its last iteration. -/
def linePoints (x0 y0 x1 y1 : Int) : List (Int × Int) :=
  lineTrace (cAbs (x1 - x0)) (cAbs (y1 - y0)) (lineDir x0 x1) (lineDir y0 y1)
    (lineInit x0 y0 x1 y1) (lineLen x0 y0 x1 y1)

/-! ## binary32 arithmetic

`float` values are modelled by the rationals they denote; every operation rounds
its exact result to binary32 (round to nearest, ties to even), as an
implementation that evaluates `float` expressions in `float` precision does.
Infinities and NaN are outside the model: the exponent of `f32` is unbounded
above, so a result beyond the binary32 range stays a huge finite number, and
the conversion to `int` is then undefined in the source and `none` here.  The
sign of a zero is not tracked; it cannot influence `project3D`, which divides
only by values above `0.1f`. -/

/-- Round to the nearest integer, ties to the even neighbour. -/
def roundHalfEven (t : ℚ) : ℤ :=
  let f := ⌊t⌋
  if t - f < 1 / 2 then f
  else if 1 / 2 < t - f then f + 1
  else if f % 2 = 0 then f else f + 1

/-- Exponent of the spacing of binary32 values around `q`: 24 significant bits,
smallest normal exponent -126 (below it the spacing stays that of the subnormals). -/
def ulpExp (q : ℚ) : ℤ := max (Int.log 2 |q|) (-126) - 23

/-- Rounding of an exact result to binary32 (round to nearest, ties to even). -/
def f32 (q : ℚ) : ℚ := roundHalfEven (q / 2 ^ ulpExp q) * 2 ^ ulpExp q

/-- Addition `a + b` on `float`. -/
def fadd (a b : ℚ) : ℚ := f32 (a + b)

/-- Subtraction `a - b` on `float`. -/
def fsub (a b : ℚ) : ℚ := f32 (a - b)

/-- Multiplication `a * b` on `float`. -/
def fmul (a b : ℚ) : ℚ := f32 (a * b)

/-- Division `a / b` on `float`. -/
def fdiv (a b : ℚ) : ℚ := f32 (a / b)

/-- The conversion `(int)q`: the fractional part is discarded; the behaviour is
undefined (`none`) when the integral part is not a 32-bit `int`. -/
def toInt (q : ℚ) : Option Int :=
  if -(2 ^ 31 : ℚ) - 1 < q ∧ q < 2 ^ 31 then some (if 0 ≤ q then ⌊q⌋ else ⌈q⌉) else none

/-! ## Projector and scene -/

/-- Function `project3D`: the pair `(*screenX, *screenY)` it stores.  The literals `5.0f`,
`20` and `10` are exact, `0.1f` is `1/10` rounded to binary32, and `WIDTH / 2`,
`HEIGHT / 2` are integer divisions converted to `float`. -/
def project3D (x y z : ℚ) : Option (Int × Int) :=
  let zOffset := fadd z 5
  if zOffset > f32 (1 / 10) then
    let xProj := fdiv x zOffset
    let yProj := fdiv y zOffset
    do
      let screenX ← toInt (fadd ((WIDTH / 2 : Nat) : ℚ) (fmul xProj 20))
      let screenY ← toInt (fsub ((HEIGHT / 2 : Nat) : ℚ) (fmul yProj 10))
      pure (screenX, screenY)
  else some (-1, -1)

/-- The table `edges` of `drawCube`. -/
def edges : List (Nat × Nat) :=
  [(0, 1), (1, 2), (2, 3), (3, 0),
   (4, 5), (5, 6), (6, 7), (7, 4),
   (0, 4), (1, 5), (2, 6), (3, 7)]

/-- First loop of `drawCube`: project the `numVertices` vertices, each moved by
`translateZ` along `z`.  Reading past the end of `cube` is undefined (`none`). -/
def projectVertices (cube : List (ℚ × ℚ × ℚ)) (translateZ : ℚ) (numVertices : Nat) :
    Option (List (Int × Int)) :=
  (List.range numVertices).mapM fun i => do
    let v ← cube[i]?
    project3D v.1 v.2.1 (fadd v.2.2 translateZ)

/-- Second loop of `drawCube`: one `drawLine` with `'#'` per edge, between the
projected end points.  An index outside `projected` is undefined (`none`). -/
def drawEdges (fuel : Nat) (screen : Screen) (projected : List (Int × Int))
    (edgeList : List (Nat × Nat)) : Option Screen :=
  edgeList.foldlM (fun scr e => do
    let p0 ← projected[e.1]?
    let p1 ← projected[e.2]?
    let r ← drawLine fuel scr p0.1 p0.2 p1.1 p1.2 '#'
    pure r.1) screen

/-- Third loop of `drawCube`: the marker `'*'` at every projected vertex. -/
def drawMarkers (screen : Screen) (projected : List (Int × Int)) (numVertices : Nat) :
    Option Screen :=
  (List.range numVertices).foldlM (fun scr i => do
    let p ← projected[i]?
    pure (drawPixel scr p.1 p.2 '*')) screen

/-- Function `drawCube`: project the vertices, draw the edges, mark the vertices. -/
def drawCube (fuel : Nat) (screen : Screen) (cube : List (ℚ × ℚ × ℚ)) (translateZ : ℚ) :
    Option Screen := do
  let numVertices := 8
  let projected ← projectVertices cube translateZ numVertices
  let screen1 ← drawEdges fuel screen projected edges
  drawMarkers screen1 projected numVertices

/-- The vertex table `cube` of `main`. -/
def cube : List (ℚ × ℚ × ℚ) :=
  [(-1, -1, -1), (1, -1, -1), (1, 1, -1), (-1, 1, -1),
   (-1, -1, 1), (1, -1, 1), (1, 1, 1), (-1, 1, 1)]

/-- The value of `WIDTH / 2 + xProj * 20` in `project3D`, before the conversion to
`int`. -/
def screenXf (x z : ℚ) : ℚ :=
  fadd ((WIDTH / 2 : Nat) : ℚ) (fmul (fdiv x (fadd z 5)) 20)

/-- The value of `HEIGHT / 2 - yProj * 10` in `project3D`, before the conversion to
`int`. -/
def screenYf (y z : ℚ) : ℚ :=
  fsub ((HEIGHT / 2 : Nat) : ℚ) (fmul (fdiv y (fadd z 5)) 10)

/-- The depth offset of a frame in `main`: `float translateZ = -frame * 0.1f`, the
`int` value `-frame` converted to `float` and multiplied by `0.1f`. -/
def frameOffset (frame : Int) : ℚ := fmul (f32 (-(frame : ℚ))) (f32 (1 / 10))

/-- Truncation towards zero. -/
def truncQ (q : ℚ) : ℤ := if 0 ≤ q then ⌊q⌋ else ⌈q⌉

/-! ## Animation driver -/

/-- The frame loop of `main`, `for (int frame = 0; frame < 100; frame++)`, entered
with the given value of `frame`.  Each iteration clears the buffer, draws the cube at
the depth offset of the frame and displays the buffer; the result lists the displayed
frames (frame number and buffer), in order.  The loop takes its own fuel, and
`lineFuel` is the fuel given to every `drawLine`. -/
def mainLoop (lineFuel : Nat) : Nat → Int → Screen → Option (List (Int × Screen))
  | 0, _, _ => none
  | fuel + 1, frame, screen =>
    if frame < 100 then do
      let screen1 := clearScreen screen
      let translateZ := frameOffset frame
      let screen2 ← drawCube lineFuel screen1 cube translateZ
      let rest ← mainLoop lineFuel fuel (frame + 1) screen2
      pure ((frame, screen2) :: rest)
    else some []

/-- Function `main`: the frame loop from `frame = 0`; `screen` is the content of the
uninitialised local buffer. -/
def main (lineFuel fuel : Nat) (screen : Screen) : Option (List (Int × Screen)) :=
  mainLoop lineFuel fuel 0 screen

/-! ## Stores taken as raw array accesses

The functions below repeat `drawPixel`, `drawLine` and `drawCube` with the store
`screen[y][x] = c` modelled as an access to the C array on `int` indices, which is
undefined (`none`) outside `[0, HEIGHT) x [0, WIDTH)`.  They serve to state that no
store of the program leaves the buffer. -/

/-- The raw array store `screen[y][x] = c`: undefined outside the array. -/
def storeAt (screen : Screen) (y x : Int) (c : Char) : Option Screen :=
  if h : 0 ≤ y ∧ y < HEIGHT ∧ 0 ≤ x ∧ x < WIDTH then
    some (screen.store ⟨y.toNat, by omega⟩ ⟨x.toNat, by omega⟩ c)
  else none

/-- Function `drawPixel` over the raw store. -/
def drawPixelChecked (screen : Screen) (x y : Int) (c : Char) : Option Screen :=
  if x ≥ 0 ∧ x < WIDTH ∧ y ≥ 0 ∧ y < HEIGHT then storeAt screen y x c else some screen

/-- The loop of `drawLine` over the raw store. -/
def drawLineLoopChecked (x1 y1 dx dy sx sy : Int) (c : Char) :
    Nat → Screen → LineState → Option (Screen × List (Int × Int))
  | 0, _, _ => none
  | fuel + 1, screen, s => do
    let screen1 ← drawPixelChecked screen s.x s.y c
    if s.x = x1 ∧ s.y = y1 then some (screen1, [(s.x, s.y)])
    else
      (drawLineLoopChecked x1 y1 dx dy sx sy c fuel screen1 (lineStep dx dy sx sy s)).map
        (fun r => (r.1, (s.x, s.y) :: r.2))

/-- Function `drawLine` over the raw store. -/
def drawLineChecked (fuel : Nat) (screen : Screen) (x0 y0 x1 y1 : Int) (c : Char) :
    Option (Screen × List (Int × Int)) :=
  let dx := cAbs (x1 - x0)
  let dy := cAbs (y1 - y0)
  let sx : Int := if x0 < x1 then 1 else -1
  let sy : Int := if y0 < y1 then 1 else -1
  let err := dx - dy
  drawLineLoopChecked x1 y1 dx dy sx sy c fuel screen ⟨x0, y0, err⟩

/-- Function `drawCube` over the raw store. -/
def drawCubeChecked (fuel : Nat) (screen : Screen) (cube : List (ℚ × ℚ × ℚ))
    (translateZ : ℚ) : Option Screen := do
  let numVertices := 8
  let projected ← projectVertices cube translateZ numVertices
  let screen1 ← edges.foldlM (fun scr e => do
    let p0 ← projected[e.1]?
    let p1 ← projected[e.2]?
    let r ← drawLineChecked fuel scr p0.1 p0.2 p1.1 p1.2 '#'
    pure r.1) screen
  (List.range numVertices).foldlM (fun scr i => do
    let p ← projected[i]?
    drawPixelChecked scr p.1 p.2 '*') screen1

end Cube

/-!
# Menu navigation (`terminal-ui/menu.c`)

The key read by `getch()` is an argument of `handle_input`; the function returns its
`int` result together with the menu it leaves behind.  The two `do ... while` loops
and the shortcut `for` loop take a fuel argument (`none`: fuel exhausted, or an
`items` index outside the array).
-/

namespace TerminalUI

/-- Capacity of a menu (`#define MAX_MENU_ITEMS 10`). -/
abbrev MAX_MENU_ITEMS : Nat := 10

/-- The struct `MenuItem`; a `NULL` text is `none`. -/
structure MenuItem where
  text : Option String
  key : Char
  enabled : Int

/-- The struct `Menu`; `items` is the array `MenuItem items[MAX_MENU_ITEMS]`. -/
structure Menu where
  title : String
  items : Fin MAX_MENU_ITEMS → MenuItem
  item_count : Int
  selected : Int

/-- The curses key code `KEY_DOWN` (0402 in `<curses.h>`). -/
def KEY_DOWN : Int := 258

/-- The curses key code `KEY_UP` (0403 in `<curses.h>`). -/
def KEY_UP : Int := 259

/-- The array read `menu->items[i]`: undefined outside the array. -/
def Menu.item (menu : Menu) (i : Int) : Option MenuItem :=
  if h : 0 ≤ i ∧ i < MAX_MENU_ITEMS then some (menu.items ⟨i.toNat, by omega⟩) else none

/-- The loop of `case KEY_UP`: step back, wrap to the last item, repeat while the
selected item is disabled. -/
def moveUp : Nat → Menu → Option Menu
  | 0, _ => none
  | fuel + 1, menu =>
    let m1 : Menu := { menu with selected := menu.selected - 1 }
    let m2 : Menu := if m1.selected < 0 then { m1 with selected := m1.item_count - 1 } else m1
    match m2.item m2.selected with
    | none => none
    | some it => if it.enabled = 0 then moveUp fuel m2 else some m2

/-- The loop of `case KEY_DOWN`: step forward, wrap to the first item, repeat while
the selected item is disabled. -/
def moveDown : Nat → Menu → Option Menu
  | 0, _ => none
  | fuel + 1, menu =>
    let m1 : Menu := { menu with selected := menu.selected + 1 }
    let m2 : Menu := if m1.selected ≥ m1.item_count then { m1 with selected := 0 } else m1
    match m2.item m2.selected with
    | none => none
    | some it => if it.enabled = 0 then moveDown fuel m2 else some m2

/-- The `for` loop of the `default` case, entered with the given `i`: the first enabled
item whose shortcut key, or its upper-case form `key - 32`, equals `ch` is selected. -/
def shortcutLoop (ch : Int) : Nat → Int → Menu → Option (Int × Menu)
  | 0, _, _ => none
  | fuel + 1, i, menu =>
    if i < menu.item_count then
      match menu.item i with
      | none => none
      | some it =>
        if (ch = (it.key.toNat : Int) ∨ ch = (it.key.toNat : Int) - 32) ∧ it.enabled ≠ 0 then
          some (1, { menu with selected := i })
        else shortcutLoop ch fuel (i + 1) menu
    else some (0, menu)

/-- Function `handle_input` on the key `ch` returned by `getch()`.  The character
constants of the `switch` are written as their codes: newline 10, carriage return 13,
`q` 113, `Q` 81, escape 27. -/
def handle_input (fuel : Nat) (ch : Int) (menu : Menu) : Option (Int × Menu) :=
  if ch = KEY_UP then (moveUp fuel menu).map (fun m => (0, m))
  else if ch = KEY_DOWN then (moveDown fuel menu).map (fun m => (0, m))
  else if ch = 10 ∨ ch = 13 then
    match menu.item menu.selected with
    | none => none
    | some it => if it.enabled ≠ 0 then some (1, menu) else some (0, menu)
  else if ch = 113 ∨ ch = 81 ∨ ch = 27 then some (-1, menu)
  else shortcutLoop ch fuel 0 menu

/-- Whether `menu->items[i]` is inside the array and enabled. -/
def Menu.enabledAt (menu : Menu) (i : Int) : Bool :=
  match menu.item i with
  | none => false
  | some it => it.enabled ≠ 0

/-- Function `create_main_menu`; `junk` stands for the content of the four array
entries that the function leaves uninitialised. -/
def create_main_menu (junk : MenuItem) : Menu where
  title := "MAIN MENU"
  selected := 0
  item_count := 6
  items := fun i =>
    match i.val with
    | 0 => ⟨some "New Game", 'n', 1⟩
    | 1 => ⟨some "Load Game", 'l', 0⟩
    | 2 => ⟨some "Settings", 's', 1⟩
    | 3 => ⟨some "High Scores", 'h', 1⟩
    | 4 => ⟨some "Help", '?', 1⟩
    | 5 => ⟨some "Quit", 'q', 1⟩
    | _ => junk

end TerminalUI

namespace Cube

/-! ## Frame buffer: proofs -/

theorem store_apply (screen : Screen) (i : Fin HEIGHT) (j : Fin WIDTH) (c : Char)
    (a : Fin HEIGHT) (b : Fin WIDTH) :
    screen.store i j c a b = if a = i ∧ b = j then c else screen a b := by
  unfold Screen.store
  by_cases ha : a = i
  · subst ha
    by_cases hb : b = j
    · subst hb; simp
    · simp [hb]
  · simp [ha]

theorem drawPixel_apply (screen : Screen) (x y : Int) (c : Char)
    (a : Fin HEIGHT) (b : Fin WIDTH) :
    drawPixel screen x y c a b =
      if ((b : Nat) : Int) = x ∧ ((a : Nat) : Int) = y then c else screen a b := by
  unfold drawPixel
  split
  · rename_i h
    rw [store_apply]
    have h1 : (a = (⟨y.toNat, by omega⟩ : Fin HEIGHT) ∧ b = (⟨x.toNat, by omega⟩ : Fin WIDTH)) ↔
        (((b : Nat) : Int) = x ∧ ((a : Nat) : Int) = y) := by
      rw [Fin.ext_iff, Fin.ext_iff]
      simp only
      omega
    simp only [h1]
  · rename_i h
    have h1 : ¬ (((b : Nat) : Int) = x ∧ ((a : Nat) : Int) = y) := by
      have := a.isLt
      have := b.isLt
      omega
    simp [h1]

theorem drawPixel_out (screen : Screen) (x y : Int) (c : Char)
    (h : ¬ InBounds (x, y)) : drawPixel screen x y c = screen := by
  unfold drawPixel
  rw [dif_neg]
  simpa [InBounds] using h

/-! ## Line rasteriser: the loop and its invariant -/

theorem lineTrace_zero (dx dy sx sy : Int) (s : LineState) :
    lineTrace dx dy sx sy s 0 = [s.pos] := by
  simp [lineTrace, List.range_succ]

theorem lineTrace_succ (dx dy sx sy : Int) (s : LineState) (n : Nat) :
    lineTrace dx dy sx sy s (n + 1) =
      s.pos :: lineTrace dx dy sx sy (lineStep dx dy sx sy s) n := by
  unfold lineTrace
  rw [List.range_succ_eq_map, List.map_cons, List.map_map]
  rfl

theorem lineTrace_length (dx dy sx sy : Int) (s : LineState) (n : Nat) :
    (lineTrace dx dy sx sy s n).length = n + 1 := by
  simp [lineTrace]

theorem lineTrace_getElem (dx dy sx sy : Int) (s : LineState) (n k : Nat)
    (hk : k < (lineTrace dx dy sx sy s n).length) :
    (lineTrace dx dy sx sy s n)[k] = ((lineStep dx dy sx sy)^[k] s).pos := by
  simp [lineTrace]

theorem mem_lineTrace (dx dy sx sy : Int) (s : LineState) (n : Nat) (p : Int × Int) :
    p ∈ lineTrace dx dy sx sy s n ↔ ∃ k, k ≤ n ∧ ((lineStep dx dy sx sy)^[k] s).pos = p := by
  simp [lineTrace, Nat.lt_succ_iff]

/-- If the loop body reaches the end point after exactly `n` passes, the loop
returns with any fuel above `n`, having plotted the `n + 1` visited points. -/
theorem drawLineLoop_trace (x1 y1 dx dy sx sy : Int) (c : Char) :
    ∀ (n : Nat) (s : LineState) (screen : Screen) (fuel : Nat),
      (∀ k, k < n → ¬ (((lineStep dx dy sx sy)^[k] s).x = x1 ∧
        ((lineStep dx dy sx sy)^[k] s).y = y1)) →
      (((lineStep dx dy sx sy)^[n] s).x = x1 ∧ ((lineStep dx dy sx sy)^[n] s).y = y1) →
      n < fuel →
      drawLineLoop x1 y1 dx dy sx sy c fuel screen s =
        some (plotAll c (lineTrace dx dy sx sy s n) screen, lineTrace dx dy sx sy s n) := by
  intro n
  induction n with
  | zero =>
    intro s screen fuel _ hend hfuel
    obtain ⟨f, rfl⟩ : ∃ f, fuel = f + 1 := ⟨fuel - 1, by omega⟩
    simp only [Function.iterate_zero, id_eq] at hend
    simp [drawLineLoop, hend, lineTrace_zero, plotAll, LineState.pos]
  | succ n ih =>
    intro s screen fuel hnot hend hfuel
    obtain ⟨f, rfl⟩ : ∃ f, fuel = f + 1 := ⟨fuel - 1, by omega⟩
    have h0 : ¬ (s.x = x1 ∧ s.y = y1) := by simpa using hnot 0 (Nat.succ_pos n)
    have hrec := ih (lineStep dx dy sx sy s) (drawPixel screen s.x s.y c) f
      (fun k hk => by simpa [Function.iterate_succ_apply] using hnot (k + 1) (by omega))
      (by simpa [Function.iterate_succ_apply] using hend) (by omega)
    rw [drawLineLoop]
    simp only [h0, if_false]
    rw [hrec, lineTrace_succ]
    simp [plotAll, LineState.pos]

theorem lineInv_not_target (x1 y1 dx dy sx sy : Int) (n : Nat) (s : LineState)
    (hsx : sx = 1 ∨ sx = -1) (hsy : sy = 1 ∨ sy = -1)
    (h : LineInv x1 y1 dx dy sx sy (n + 1) s) : ¬ (s.x = x1 ∧ s.y = y1) := by
  rintro ⟨hx, hy⟩
  rcases h with ⟨_, _, _, h3, _⟩ | ⟨_, _, h3, _⟩
  · push_cast at h3
    rcases hsx with rfl | rfl <;> omega
  · push_cast at h3
    rcases hsy with rfl | rfl <;> omega

theorem eq_zero_of_mul_window (m d : Int) (hd : 0 < d) (h1 : 2 * (m * d) ≤ d)
    (h2 : -(2 * (m * d)) < d) : m = 0 := by
  by_contra hm
  rcases lt_or_gt_of_ne hm with h | h
  · have : m * d ≤ -1 * d := mul_le_mul_of_nonneg_right (by omega) hd.le
    omega
  · have : 1 * d ≤ m * d := mul_le_mul_of_nonneg_right (by omega) hd.le
    omega

theorem lineInv_target (x1 y1 dx dy sx sy : Int) (s : LineState)
    (hsx : sx = 1 ∨ sx = -1) (hsy : sy = 1 ∨ sy = -1)
    (h : LineInv x1 y1 dx dy sx sy 0 s) : s.x = x1 ∧ s.y = y1 := by
  rcases h with ⟨_, _, hd, h3, _, h5, h6, h7, _⟩ | ⟨_, hd, h3, _, h5, h6, h7, _⟩
  · simp only [Nat.cast_zero, zero_mul, add_zero] at h3 h5
    have hm : (y1 - s.y) * sy = 0 :=
      eq_zero_of_mul_window _ dx hd (by omega) (by omega)
    refine ⟨by omega, ?_⟩
    rcases hsy with rfl | rfl <;> omega
  · simp only [Nat.cast_zero, zero_mul, add_zero] at h3 h5
    have hd2 : 0 < dy := by omega
    have hm : (x1 - s.x) * sx = 0 :=
      eq_zero_of_mul_window _ dy (by omega) (by omega) (by omega)
    refine ⟨?_, by omega⟩
    rcases hsx with rfl | rfl <;> omega

theorem lineInv_step (x1 y1 dx dy sx sy : Int) (n : Nat) (s : LineState)
    (hsx : sx = 1 ∨ sx = -1) (hsy : sy = 1 ∨ sy = -1)
    (h : LineInv x1 y1 dx dy sx sy (n + 1) s) :
    LineInv x1 y1 dx dy sx sy n (lineStep dx dy sx sy s) := by
  have hsx2 : sx * sx = 1 := by rcases hsx with rfl | rfl <;> rfl
  have hsy2 : sy * sy = 1 := by rcases hsy with rfl | rfl <;> rfl
  rcases h with ⟨h0, h1, h2, h3, h4, h5, h6, h7, h8⟩ | ⟨h0, h1, h3, h4, h5, h6, h7, h8⟩
  · left
    push_cast at h3 h4 h5
    have hx : 2 * s.err > -dy := by omega
    unfold lineStep
    simp only [hx, if_true]
    by_cases hy : 2 * s.err < dx
    · simp only [hy, if_true]
      refine ⟨h0, h1, h2, by linear_combination h3, by omega, ?_, by omega, by omega, by omega⟩
      linear_combination h5 - dx * hsy2
    · simp only [hy, if_false]
      refine ⟨h0, h1, h2, by linear_combination h3, by omega, ?_, by omega, by omega, by omega⟩
      linear_combination h5
  · right
    push_cast at h3 h4 h5
    have hy : 2 * s.err < dx := by omega
    unfold lineStep
    simp only [hy, if_true]
    by_cases hx : 2 * s.err > -dy
    · simp only [hx, if_true]
      refine ⟨h0, h1, by linear_combination h3, by omega, ?_, by omega, by omega, by omega⟩
      linear_combination h5 - dy * hsx2
    · simp only [hx, if_false]
      refine ⟨h0, h1, by linear_combination h3, by omega, ?_, by omega, by omega, by omega⟩
      linear_combination h5

theorem lineInv_iterate (x1 y1 dx dy sx sy : Int)
    (hsx : sx = 1 ∨ sx = -1) (hsy : sy = 1 ∨ sy = -1) :
    ∀ (k n : Nat) (s : LineState), LineInv x1 y1 dx dy sx sy (n + k) s →
      LineInv x1 y1 dx dy sx sy n ((lineStep dx dy sx sy)^[k] s) := by
  intro k
  induction k with
  | zero => intro n s h; simpa using h
  | succ k ih =>
    intro n s h
    rw [Function.iterate_succ_apply]
    apply ih
    apply lineInv_step _ _ _ _ _ _ _ _ hsx hsy
    have : n + (k + 1) = n + k + 1 := by omega
    rw [← this]; exact h

/-- From a state satisfying the invariant with `n` iterations left, the loop returns
with any fuel above `n`, having plotted the `n + 1` visited points. -/
theorem lineInv_loop (x1 y1 dx dy sx sy : Int) (c : Char)
    (hsx : sx = 1 ∨ sx = -1) (hsy : sy = 1 ∨ sy = -1)
    (n : Nat) (s : LineState) (h : LineInv x1 y1 dx dy sx sy n s)
    (screen : Screen) (fuel : Nat) (hfuel : n < fuel) :
    drawLineLoop x1 y1 dx dy sx sy c fuel screen s =
      some (plotAll c (lineTrace dx dy sx sy s n) screen, lineTrace dx dy sx sy s n) := by
  apply drawLineLoop_trace
  · intro k hk
    obtain ⟨m, rfl⟩ : ∃ m, n = m + 1 + k := ⟨n - 1 - k, by omega⟩
    exact lineInv_not_target _ _ _ _ _ _ _ _ hsx hsy
      (lineInv_iterate x1 y1 dx dy sx sy hsx hsy k (m + 1) s h)
  · apply lineInv_target _ _ _ _ _ _ _ hsx hsy
    apply lineInv_iterate x1 y1 dx dy sx sy hsx hsy n 0 s
    simpa using h
  · exact hfuel

/-! ## Line rasteriser: `drawLine` as a whole -/

theorem cAbs_nonneg (n : Int) : 0 ≤ cAbs n := by
  unfold cAbs; split <;> omega

theorem cAbs_eq_mul_dir (a b : Int) : cAbs (b - a) = (b - a) * lineDir a b := by
  unfold cAbs lineDir
  split_ifs <;> omega

theorem lineDir_cases (a b : Int) : lineDir a b = 1 ∨ lineDir a b = -1 := by
  unfold lineDir; split <;> simp

theorem lineLen_cast (x0 y0 x1 y1 : Int) :
    ((lineLen x0 y0 x1 y1 : Nat) : Int) = max (cAbs (x1 - x0)) (cAbs (y1 - y0)) := by
  unfold lineLen
  have := cAbs_nonneg (x1 - x0)
  have := cAbs_nonneg (y1 - y0)
  omega

theorem lineLen_eq_zero (x0 y0 x1 y1 : Int) :
    lineLen x0 y0 x1 y1 = 0 ↔ (x0 = x1 ∧ y0 = y1) := by
  have h := lineLen_cast x0 y0 x1 y1
  unfold cAbs at h
  split_ifs at h <;> omega

/-- The invariant holds when `drawLine` enters its loop with distinct end points. -/
theorem lineInv_init (x0 y0 x1 y1 : Int) (hne : ¬ (x0 = x1 ∧ y0 = y1)) :
    LineInv x1 y1 (cAbs (x1 - x0)) (cAbs (y1 - y0)) (lineDir x0 x1) (lineDir y0 y1)
      (lineLen x0 y0 x1 y1) (lineInit x0 y0 x1 y1) := by
  have hN := lineLen_cast x0 y0 x1 y1
  have hdx := cAbs_eq_mul_dir x0 x1
  have hdy := cAbs_eq_mul_dir y0 y1
  have hx0 := cAbs_nonneg (x1 - x0)
  have hy0 := cAbs_nonneg (y1 - y0)
  have hsx2 : lineDir x0 x1 * lineDir x0 x1 = 1 := by
    rcases lineDir_cases x0 x1 with h | h <;> rw [h] <;> rfl
  have hsy2 : lineDir y0 y1 * lineDir y0 y1 = 1 := by
    rcases lineDir_cases y0 y1 with h | h <;> rw [h] <;> rfl
  have hpos : 0 < max (cAbs (x1 - x0)) (cAbs (y1 - y0)) := by
    have h0 := (lineLen_eq_zero x0 y0 x1 y1).not.mpr hne
    omega
  unfold LineInv lineInit
  simp only [hN]
  by_cases hmajor : cAbs (y1 - y0) ≤ cAbs (x1 - x0)
  · left
    rw [max_eq_left hmajor] at hpos ⊢
    refine ⟨hy0, hmajor, hpos, ?_, le_refl _, ?_, by omega, by omega, by omega⟩
    · linear_combination (-(x1 - x0)) * hsx2 - lineDir x0 x1 * hdx
    · linear_combination (-(cAbs (x1 - x0))) * hdy
  · right
    have hlt : cAbs (x1 - x0) < cAbs (y1 - y0) := by omega
    rw [max_eq_right hlt.le] at hpos ⊢
    refine ⟨hx0, hlt, ?_, le_refl _, ?_, by omega, by omega, by omega⟩
    · linear_combination (-(y1 - y0)) * hsy2 - lineDir y0 y1 * hdy
    · linear_combination (-(cAbs (y1 - y0))) * hdx

/-- With fuel above `lineLen`, `drawLine` returns: it has plotted exactly
`linePoints`, in order, each through `drawPixel`. -/
theorem drawLine_eq (fuel : Nat) (screen : Screen) (x0 y0 x1 y1 : Int) (c : Char)
    (hfuel : lineLen x0 y0 x1 y1 < fuel) :
    drawLine fuel screen x0 y0 x1 y1 c =
      some (plotAll c (linePoints x0 y0 x1 y1) screen, linePoints x0 y0 x1 y1) := by
  unfold drawLine linePoints
  by_cases hne : x0 = x1 ∧ y0 = y1
  · have h0 : lineLen x0 y0 x1 y1 = 0 := (lineLen_eq_zero x0 y0 x1 y1).mpr hne
    rw [h0]
    apply drawLineLoop_trace
    · intro k hk; omega
    · simpa using hne
    · omega
  · exact lineInv_loop x1 y1 _ _ _ _ c (lineDir_cases x0 x1) (lineDir_cases y0 y1) _ _
      (lineInv_init x0 y0 x1 y1 hne) screen fuel hfuel

/-- The invariant at iteration `k` of a `drawLine` run with distinct end points. -/
theorem lineInv_at (x0 y0 x1 y1 : Int) (hne : ¬ (x0 = x1 ∧ y0 = y1)) (k : Nat)
    (hk : k ≤ lineLen x0 y0 x1 y1) :
    LineInv x1 y1 (cAbs (x1 - x0)) (cAbs (y1 - y0)) (lineDir x0 x1) (lineDir y0 y1)
      (lineLen x0 y0 x1 y1 - k) (lineStateAt x0 y0 x1 y1 k) := by
  unfold lineStateAt
  apply lineInv_iterate _ _ _ _ _ _ (lineDir_cases x0 x1) (lineDir_cases y0 y1)
  have : lineLen x0 y0 x1 y1 - k + k = lineLen x0 y0 x1 y1 := by omega
  rw [this]
  exact lineInv_init x0 y0 x1 y1 hne

theorem mem_linePoints (x0 y0 x1 y1 : Int) (p : Int × Int) :
    p ∈ linePoints x0 y0 x1 y1 ↔
      ∃ k, k ≤ lineLen x0 y0 x1 y1 ∧ (lineStateAt x0 y0 x1 y1 k).pos = p := by
  unfold linePoints lineStateAt
  exact mem_lineTrace _ _ _ _ _ _ _

theorem plotAll_apply (c : Char) (pts : List (Int × Int)) (screen : Screen)
    (i : Fin HEIGHT) (j : Fin WIDTH) :
    plotAll c pts screen i j =
      if (((j : Nat) : Int), ((i : Nat) : Int)) ∈ pts then c else screen i j := by
  induction pts generalizing screen with
  | nil => simp [plotAll]
  | cons p rest ih =>
    have hstep : plotAll c (p :: rest) screen = plotAll c rest (drawPixel screen p.1 p.2 c) := rfl
    rw [hstep, ih, drawPixel_apply]
    by_cases h1 : (((j : Nat) : Int), ((i : Nat) : Int)) ∈ rest
    · simp [h1]
    · by_cases h2 : (((j : Nat) : Int), ((i : Nat) : Int)) = p
      · simp [h1, ← h2]
      · have h3 : ¬ (((j : Nat) : Int) = p.1 ∧ ((i : Nat) : Int) = p.2) := by
          rintro ⟨ha, hb⟩
          exact h2 (Prod.ext ha hb)
        simp [h1, h2, h3]

/-- A pass through the loop body moves to a different, 8-adjacent cell. -/
theorem lineStep_adjacent (x1 y1 dx dy sx sy : Int) (n : Nat) (s : LineState)
    (hsx : sx = 1 ∨ sx = -1) (hsy : sy = 1 ∨ sy = -1)
    (h : LineInv x1 y1 dx dy sx sy (n + 1) s) :
    Adjacent8 s.pos (lineStep dx dy sx sy s).pos := by
  have hmove : 2 * s.err > -dy ∨ 2 * s.err < dx := by
    rcases h with ⟨_, _, _, _, _, _, _, _, h8⟩ | ⟨_, _, _, _, _, _, _, h8⟩
    · left; omega
    · right; exact h8
  unfold Adjacent8 lineStep LineState.pos cAbs
  rcases hsx with rfl | rfl <;> rcases hsy with rfl | rfl <;>
    by_cases hx : 2 * s.err > -dy <;> by_cases hy : 2 * s.err < dx <;>
    simp [hx, hy, Prod.ext_iff] <;> omega

/-- Along the minor axis the distance left to the end point stays between 0 and
the total minor extent. -/
theorem minor_window (n m d e err : Int) (hd : 0 < d) (he : 0 ≤ e) (hn0 : 0 ≤ n) (hn : n ≤ d)
    (h5 : err = d - e + n * e - m * d) (h6 : d - 2 * e ≤ 2 * err)
    (h7 : 2 * err < 3 * d - 2 * e) : 0 ≤ m ∧ m ≤ e := by
  have hne : 0 ≤ n * e := mul_nonneg hn0 he
  have hne2 : n * e ≤ d * e := mul_le_mul_of_nonneg_right hn he
  constructor
  · by_contra hm
    have : m * d ≤ -1 * d := mul_le_mul_of_nonneg_right (by omega) hd.le
    omega
  · by_contra hm
    have h1 : (e + 1) * d ≤ m * d := mul_le_mul_of_nonneg_right (by omega) hd.le
    have h2 : (e + 1) * d = d * e + d := by ring
    omega

/-- Position of a state satisfying the invariant: `n` major-axis cells and some
`m` minor-axis cells away from the end point, with `0 ≤ m ≤` the minor extent. -/
theorem lineInv_position (x1 y1 dx dy sx sy : Int) (n : Nat) (s : LineState)
    (hsx : sx = 1 ∨ sx = -1) (hsy : sy = 1 ∨ sy = -1)
    (h : LineInv x1 y1 dx dy sx sy n s) :
    (dy ≤ dx ∧ s.x = x1 - n * sx ∧ ∃ m : Int, 0 ≤ m ∧ m ≤ dy ∧ s.y = y1 - m * sy) ∨
    (dx < dy ∧ s.y = y1 - n * sy ∧ ∃ m : Int, 0 ≤ m ∧ m ≤ dx ∧ s.x = x1 - m * sx) := by
  have hsx2 : sx * sx = 1 := by rcases hsx with rfl | rfl <;> rfl
  have hsy2 : sy * sy = 1 := by rcases hsy with rfl | rfl <;> rfl
  rcases h with ⟨h0, h1, h2, h3, h4, h5, h6, h7, _⟩ | ⟨h0, h1, h3, h4, h5, h6, h7, _⟩
  · left
    refine ⟨h1, by omega, (y1 - s.y) * sy, ?_, ?_, ?_⟩
    · exact (minor_window n _ dx dy s.err h2 h0 (by omega) h4 h5 h6 h7).1
    · exact (minor_window n _ dx dy s.err h2 h0 (by omega) h4 h5 h6 h7).2
    · linear_combination (y1 - s.y) * hsy2
  · right
    refine ⟨h1, by omega, (x1 - s.x) * sx, ?_, ?_, ?_⟩
    · exact (minor_window n _ dy dx (-s.err) (by omega) h0 (by omega) h4 h5 (by omega)
        (by omega)).1
    · exact (minor_window n _ dy dx (-s.err) (by omega) h0 (by omega) h4 h5 (by omega)
        (by omega)).2
    · linear_combination (x1 - s.x) * hsx2

theorem cAbs_eq_abs (n : Int) : cAbs n = |n| := by
  unfold cAbs
  split
  · rw [abs_of_neg (by assumption)]
  · rw [abs_of_nonneg (by omega)]

theorem lineLen_cast_abs (x0 y0 x1 y1 : Int) :
    ((lineLen x0 y0 x1 y1 : Nat) : Int) = max |x1 - x0| |y1 - y0| := by
  rw [lineLen_cast, cAbs_eq_abs, cAbs_eq_abs]

theorem linePoints_head (x0 y0 x1 y1 : Int) :
    (linePoints x0 y0 x1 y1).head? = some (x0, y0) := by
  simp [linePoints, lineTrace, List.range_succ_eq_map, lineInit, LineState.pos]

theorem lineStateAt_last (x0 y0 x1 y1 : Int) :
    (lineStateAt x0 y0 x1 y1 (lineLen x0 y0 x1 y1)).pos = (x1, y1) := by
  by_cases hne : x0 = x1 ∧ y0 = y1
  · have h0 : lineLen x0 y0 x1 y1 = 0 := (lineLen_eq_zero x0 y0 x1 y1).mpr hne
    rw [h0]
    simp [lineStateAt, lineInit, LineState.pos, hne.1, hne.2]
  · have h := lineInv_at x0 y0 x1 y1 hne (lineLen x0 y0 x1 y1) (le_refl _)
    rw [Nat.sub_self] at h
    have h2 := lineInv_target _ _ _ _ _ _ _ (lineDir_cases x0 x1) (lineDir_cases y0 y1) h
    simp [LineState.pos, h2.1, h2.2]

theorem linePoints_getLast (x0 y0 x1 y1 : Int) :
    (linePoints x0 y0 x1 y1).getLast? = some (x1, y1) := by
  have h := lineStateAt_last x0 y0 x1 y1
  unfold lineStateAt at h
  simp [linePoints, lineTrace, List.range_succ, h]

theorem linePoints_chain (x0 y0 x1 y1 : Int) :
    List.Chain' Adjacent8 (linePoints x0 y0 x1 y1) := by
  unfold linePoints lineTrace
  rw [List.chain'_map, List.chain'_range_succ]
  intro m hm
  have hne : ¬ (x0 = x1 ∧ y0 = y1) := by
    intro h
    have := (lineLen_eq_zero x0 y0 x1 y1).mpr h
    omega
  have h := lineInv_at x0 y0 x1 y1 hne m hm.le
  obtain ⟨r, hr⟩ : ∃ r, lineLen x0 y0 x1 y1 - m = r + 1 :=
    ⟨lineLen x0 y0 x1 y1 - m - 1, by omega⟩
  rw [hr] at h
  have hadj := lineStep_adjacent _ _ _ _ _ _ _ _ (lineDir_cases x0 x1) (lineDir_cases y0 y1) h
  rw [Function.iterate_succ_apply']
  exact hadj

/-- Coordinates of the state at iteration `k`: the major coordinate has advanced by
exactly `k` cells, the minor coordinate is between the two end points. -/
theorem lineStateAt_coords (x0 y0 x1 y1 : Int) (hne : ¬ (x0 = x1 ∧ y0 = y1)) (k : Nat)
    (hk : k ≤ lineLen x0 y0 x1 y1) :
    (cAbs (y1 - y0) ≤ cAbs (x1 - x0) ∧
      (lineStateAt x0 y0 x1 y1 k).x = x0 + k * lineDir x0 x1 ∧
      ∃ m : Int, 0 ≤ m ∧ m ≤ cAbs (y1 - y0) ∧
        (lineStateAt x0 y0 x1 y1 k).y = y1 - m * lineDir y0 y1) ∨
    (cAbs (x1 - x0) < cAbs (y1 - y0) ∧
      (lineStateAt x0 y0 x1 y1 k).y = y0 + k * lineDir y0 y1 ∧
      ∃ m : Int, 0 ≤ m ∧ m ≤ cAbs (x1 - x0) ∧
        (lineStateAt x0 y0 x1 y1 k).x = x1 - m * lineDir x0 x1) := by
  have hN := lineLen_cast x0 y0 x1 y1
  have hdx := cAbs_eq_mul_dir x0 x1
  have hdy := cAbs_eq_mul_dir y0 y1
  have hsx2 : lineDir x0 x1 * lineDir x0 x1 = 1 := by
    rcases lineDir_cases x0 x1 with h | h <;> rw [h] <;> rfl
  have hsy2 : lineDir y0 y1 * lineDir y0 y1 = 1 := by
    rcases lineDir_cases y0 y1 with h | h <;> rw [h] <;> rfl
  have hcast : ((lineLen x0 y0 x1 y1 - k : Nat) : Int) = (lineLen x0 y0 x1 y1 : Int) - k := by
    push_cast [Nat.cast_sub hk]; rfl
  rcases lineInv_position _ _ _ _ _ _ _ _ (lineDir_cases x0 x1) (lineDir_cases y0 y1)
    (lineInv_at x0 y0 x1 y1 hne k hk) with ⟨h1, h2, m, hm0, hm1, hm2⟩ | ⟨h1, h2, m, hm0, hm1, hm2⟩
  · left
    refine ⟨h1, ?_, m, hm0, hm1, hm2⟩
    rw [h2, hcast, hN, max_eq_left h1]
    linear_combination (-(lineDir x0 x1)) * hdx - (x1 - x0) * hsx2
  · right
    refine ⟨h1, ?_, m, hm0, hm1, hm2⟩
    rw [h2, hcast, hN, max_eq_right h1.le]
    linear_combination (-(lineDir y0 y1)) * hdy - (y1 - y0) * hsy2

/-- On a 45-degree segment the invariant pins the minor coordinate as well. -/
theorem lineInv_diag (x1 y1 d sx sy : Int) (n : Nat) (s : LineState)
    (hsy : sy = 1 ∨ sy = -1) (h : LineInv x1 y1 d d sx sy n s) :
    s.y = y1 - n * sy := by
  have hsy2 : sy * sy = 1 := by rcases hsy with rfl | rfl <;> rfl
  rcases h with ⟨_, _, hd, _, _, h5, _, h7, h8⟩ | ⟨_, h1, _⟩
  · have hexp : ((n : Int) - (y1 - s.y) * sy) * d = n * d - (y1 - s.y) * sy * d := by ring
    have hz : (n : Int) - (y1 - s.y) * sy = 0 :=
      eq_zero_of_mul_window _ d hd (by omega) (by omega)
    linear_combination sy * hz + (y1 - s.y) * hsy2
  · omega

/-- Every plotted point lies in the bounding box of the two end points. -/
theorem linePoints_box (x0 y0 x1 y1 : Int) (p : Int × Int)
    (hp : p ∈ linePoints x0 y0 x1 y1) :
    min x0 x1 ≤ p.1 ∧ p.1 ≤ max x0 x1 ∧ min y0 y1 ≤ p.2 ∧ p.2 ≤ max y0 y1 := by
  obtain ⟨k, hk, rfl⟩ := (mem_linePoints x0 y0 x1 y1 p).mp hp
  by_cases hne : x0 = x1 ∧ y0 = y1
  · have h0 : lineLen x0 y0 x1 y1 = 0 := (lineLen_eq_zero x0 y0 x1 y1).mpr hne
    have hk0 : k = 0 := by omega
    subst hk0
    simp [lineStateAt, lineInit, LineState.pos, hne.1, hne.2]
  · have hN := lineLen_cast x0 y0 x1 y1
    have hkN : (k : Int) ≤ (lineLen x0 y0 x1 y1 : Int) := by exact_mod_cast hk
    simp only [LineState.pos]
    rcases lineStateAt_coords x0 y0 x1 y1 hne k hk with
      ⟨h1, h2, m, hm0, hm1, hm2⟩ | ⟨h1, h2, m, hm0, hm1, hm2⟩
    · rw [h2, hm2]
      rw [max_eq_left h1] at hN
      unfold cAbs at hN h1 hm1
      unfold lineDir
      split_ifs at hN h1 hm1 ⊢ <;> omega
    · rw [h2, hm2]
      rw [max_eq_right h1.le] at hN
      unfold cAbs at hN h1 hm1
      unfold lineDir
      split_ifs at hN h1 hm1 ⊢ <;> omega

/-- No point is plotted twice: the major coordinate is different at every iteration. -/
theorem linePoints_nodup (x0 y0 x1 y1 : Int) : (linePoints x0 y0 x1 y1).Nodup := by
  unfold linePoints lineTrace
  refine List.Nodup.map_on ?_ (List.nodup_range _)
  intro a ha b hb hab
  rw [List.mem_range] at ha hb
  by_cases hne : x0 = x1 ∧ y0 = y1
  · have h0 : lineLen x0 y0 x1 y1 = 0 := (lineLen_eq_zero x0 y0 x1 y1).mpr hne
    omega
  · have hca := lineStateAt_coords x0 y0 x1 y1 hne a (by omega)
    have hcb := lineStateAt_coords x0 y0 x1 y1 hne b (by omega)
    unfold lineStateAt at hca hcb
    simp only [LineState.pos, Prod.mk.injEq] at hab
    rcases hca with ⟨h1, h2, _⟩ | ⟨h1, h2, _⟩ <;> rcases hcb with ⟨h3, h4, _⟩ | ⟨h3, h4, _⟩
    · rw [hab.1] at h2
      rcases lineDir_cases x0 x1 with hd | hd <;> rw [hd] at h2 h4 <;> omega
    · omega
    · omega
    · rw [hab.2] at h2
      rcases lineDir_cases y0 y1 with hd | hd <;> rw [hd] at h2 h4 <;> omega

theorem lineDir_eq_sign (a b : Int) (h : a ≠ b) : lineDir a b = Int.sign (b - a) := by
  unfold lineDir
  split
  · rw [Int.sign_eq_one_of_pos (by omega)]
  · rw [Int.sign_eq_neg_one_of_neg (by omega)]

/-- The state at iteration `k` of a horizontal, vertical or 45-degree segment. -/
theorem lineStateAt_straight (x0 y0 x1 y1 : Int)
    (hshape : y0 = y1 ∨ x0 = x1 ∨ cAbs (x1 - x0) = cAbs (y1 - y0)) (k : Nat)
    (hk : k ≤ lineLen x0 y0 x1 y1) :
    (lineStateAt x0 y0 x1 y1 k).pos =
      (x0 + k * Int.sign (x1 - x0), y0 + k * Int.sign (y1 - y0)) := by
  by_cases hne : x0 = x1 ∧ y0 = y1
  · have h0 : lineLen x0 y0 x1 y1 = 0 := (lineLen_eq_zero x0 y0 x1 y1).mpr hne
    have hk0 : k = 0 := by omega
    subst hk0
    simp [lineStateAt, lineInit, LineState.pos]
  · have hN := lineLen_cast x0 y0 x1 y1
    have hcoords := lineStateAt_coords x0 y0 x1 y1 hne k hk
    simp only [LineState.pos, Prod.mk.injEq]
    by_cases hy : y0 = y1
    · have hx : x0 ≠ x1 := fun h => hne ⟨h, hy⟩
      have hdy : cAbs (y1 - y0) = 0 := by simp [hy, cAbs]
      rcases hcoords with ⟨_, h2, m, hm0, hm1, hm2⟩ | ⟨h1, _⟩
      · have hm : m = 0 := by omega
        rw [h2, hm2, hm, ← lineDir_eq_sign x0 x1 hx, hy]
        simp
      · have := cAbs_nonneg (x1 - x0)
        omega
    · by_cases hx : x0 = x1
      · have hdx : cAbs (x1 - x0) = 0 := by simp [hx, cAbs]
        rcases hcoords with ⟨h1, _⟩ | ⟨_, h2, m, hm0, hm1, hm2⟩
        · have h3 : cAbs (y1 - y0) = 0 := by
            have := cAbs_nonneg (y1 - y0)
            omega
          unfold cAbs at h3
          split_ifs at h3 <;> omega
        · have hm : m = 0 := by omega
          rw [h2, hm2, hm, ← lineDir_eq_sign y0 y1 hy, hx]
          simp
      · have hd : cAbs (x1 - x0) = cAbs (y1 - y0) := by
          rcases hshape with h | h | h
          · exact absurd h hy
          · exact absurd h hx
          · exact h
        have hinv := lineInv_at x0 y0 x1 y1 hne k hk
        rw [← hd] at hinv
        have hyk := lineInv_diag _ _ _ _ _ _ _ (lineDir_cases y0 y1) hinv
        have hdy := cAbs_eq_mul_dir y0 y1
        have hsy2 : lineDir y0 y1 * lineDir y0 y1 = 1 := by
          rcases lineDir_cases y0 y1 with h | h <;> rw [h] <;> rfl
        have hcast : ((lineLen x0 y0 x1 y1 - k : Nat) : Int) =
            (lineLen x0 y0 x1 y1 : Int) - k := by
          push_cast [Nat.cast_sub hk]; rfl
        rw [← hd, max_self] at hN
        rcases hcoords with ⟨_, h2, _⟩ | ⟨h1, _⟩
        · refine ⟨by rw [h2, lineDir_eq_sign x0 x1 hx], ?_⟩
          rw [← lineDir_eq_sign y0 y1 hy]
          change (lineStateAt x0 y0 x1 y1 k).y = _ at hyk
          rw [hyk, hcast, hN, hd]
          linear_combination (-(lineDir y0 y1)) * hdy - (y1 - y0) * hsy2
        · omega

/-! ## binary32 rounding: proofs -/

theorem roundHalfEven_le (t : ℚ) : (roundHalfEven t : ℚ) ≤ t + 1 / 2 := by
  unfold roundHalfEven
  have h1 := Int.floor_le t
  simp only
  split_ifs with ha hb hc
  · linarith
  · push_cast; linarith [Int.lt_floor_add_one t]
  · linarith
  · push_cast; linarith

theorem roundHalfEven_ge (t : ℚ) : t - 1 / 2 ≤ (roundHalfEven t : ℚ) := by
  unfold roundHalfEven
  have h1 := Int.floor_le t
  have h2 := Int.lt_floor_add_one t
  simp only
  split_ifs with ha hb hc
  · linarith
  · push_cast; linarith
  · linarith
  · push_cast; linarith

theorem roundHalfEven_intCast (n : ℤ) : roundHalfEven (n : ℚ) = n := by
  unfold roundHalfEven
  simp

theorem roundHalfEven_floor_le (t : ℚ) : ⌊t⌋ ≤ roundHalfEven t := by
  unfold roundHalfEven
  simp only
  split_ifs <;> omega

theorem roundHalfEven_le_floor_succ (t : ℚ) : roundHalfEven t ≤ ⌊t⌋ + 1 := by
  unfold roundHalfEven
  simp only
  split_ifs <;> omega

theorem roundHalfEven_mono {t u : ℚ} (h : t ≤ u) : roundHalfEven t ≤ roundHalfEven u := by
  have hfl : ⌊t⌋ ≤ ⌊u⌋ := Int.floor_mono h
  rcases hfl.lt_or_eq with hlt | heq
  · calc roundHalfEven t ≤ ⌊t⌋ + 1 := roundHalfEven_le_floor_succ t
      _ ≤ ⌊u⌋ := hlt
      _ ≤ roundHalfEven u := roundHalfEven_floor_le u
  · unfold roundHalfEven
    simp only [heq]
    split_ifs <;> first | omega | (exfalso; linarith)

theorem roundHalfEven_eq_of_near (t : ℚ) (n : ℤ) (h : |t - n| < 1 / 2) :
    roundHalfEven t = n := by
  rw [abs_lt] at h
  have h1 := roundHalfEven_le t
  have h2 := roundHalfEven_ge t
  have h3 : ((roundHalfEven t : ℤ) : ℚ) < (n : ℚ) + 1 := by linarith
  have h4 : (n : ℚ) - 1 < ((roundHalfEven t : ℤ) : ℚ) := by linarith
  have h5 : roundHalfEven t < n + 1 := by exact_mod_cast h3
  have h6 : n - 1 < roundHalfEven t := by exact_mod_cast h4
  omega

theorem roundHalfEven_neg (t : ℚ) : roundHalfEven (-t) = -roundHalfEven t := by
  by_cases hint : (⌊t⌋ : ℚ) = t
  · rw [← hint, ← Int.cast_neg, roundHalfEven_intCast, roundHalfEven_intCast]
  · have h1 := Int.floor_le t
    have h2 := Int.lt_floor_add_one t
    have hlt : (⌊t⌋ : ℚ) < t := lt_of_le_of_ne h1 hint
    have hfl : ⌊-t⌋ = -⌊t⌋ - 1 := by
      rw [Int.floor_eq_iff]
      push_cast
      constructor <;> linarith
    unfold roundHalfEven
    simp only [hfl]
    push_cast
    split_ifs <;> first | omega | (exfalso; linarith)

theorem ulpExp_eq (q : ℚ) (e : ℤ) (he : -126 ≤ e) (h1 : (2 : ℚ) ^ e ≤ |q|)
    (h2 : |q| < (2 : ℚ) ^ (e + 1)) : ulpExp q = e - 23 := by
  have hpos : 0 < |q| := lt_of_lt_of_le (zpow_pos (by norm_num) e) h1
  have hlog : Int.log 2 |q| = e := by
    apply le_antisymm
    · have := (Int.lt_zpow_iff_log_lt (b := 2) (by norm_num) (x := e + 1) hpos).mp
        (by simpa using h2)
      omega
    · exact (Int.zpow_le_iff_le_log (b := 2) (by norm_num) hpos).mp (by simpa using h1)
  unfold ulpExp
  rw [hlog, max_eq_left he]

theorem ulpExp_neg (q : ℚ) : ulpExp (-q) = ulpExp q := by
  unfold ulpExp
  rw [abs_neg]

theorem f32_neg (q : ℚ) : f32 (-q) = -f32 q := by
  unfold f32
  rw [ulpExp_neg, neg_div, roundHalfEven_neg]
  push_cast
  ring

theorem f32_zero : f32 0 = 0 := by
  unfold f32
  have : roundHalfEven 0 = 0 := by simpa using roundHalfEven_intCast 0
  simp [this]

theorem f32_nonneg {q : ℚ} (h : 0 ≤ q) : 0 ≤ f32 q := by
  unfold f32
  have hu : (0 : ℚ) < 2 ^ ulpExp q := zpow_pos (by norm_num) _
  have h0 : roundHalfEven 0 = 0 := by simpa using roundHalfEven_intCast 0
  have h1 : roundHalfEven 0 ≤ roundHalfEven (q / 2 ^ ulpExp q) :=
    roundHalfEven_mono (div_nonneg h hu.le)
  rw [h0] at h1
  exact mul_nonneg (by exact_mod_cast h1) hu.le

/-- Evaluation of the rounding inside one binade. -/
theorem f32_eval (q : ℚ) (e n : ℤ) (he : -126 ≤ e) (h1 : (2 : ℚ) ^ e ≤ |q|)
    (h2 : |q| < (2 : ℚ) ^ (e + 1)) (hn : |q / 2 ^ (e - 23) - n| < 1 / 2) :
    f32 q = n * 2 ^ (e - 23) := by
  unfold f32
  rw [ulpExp_eq q e he h1 h2, roundHalfEven_eq_of_near _ n hn]

theorem f32_mono_pos {q r : ℚ} (hq : 0 < q) (h : q ≤ r) : f32 q ≤ f32 r := by
  have hr : 0 < r := lt_of_lt_of_le hq h
  have hlog : Int.log 2 |q| ≤ Int.log 2 |r| := by
    rw [abs_of_pos hq, abs_of_pos hr]
    exact Int.log_mono_right hq h
  have hle : ulpExp q ≤ ulpExp r := by
    unfold ulpExp
    omega
  have huq : (0 : ℚ) < 2 ^ ulpExp q := zpow_pos (by norm_num) _
  have hur : (0 : ℚ) < 2 ^ ulpExp r := zpow_pos (by norm_num) _
  rcases hle.lt_or_eq with hlt | heq
  · -- different binades: a power of two lies in between
    have hA : f32 q ≤ 2 ^ (ulpExp q + 24) := by
      have hq2 : q < (2 : ℚ) ^ (ulpExp q + 24) := by
        have h1 := Int.lt_zpow_succ_log_self (b := 2) (by norm_num) q
        have h2 : ((2 : ℕ) : ℚ) ^ (Int.log 2 q + 1) ≤ (2 : ℚ) ^ (ulpExp q + 24) := by
          rw [Nat.cast_ofNat]
          apply zpow_le_zpow_right₀ (by norm_num)
          unfold ulpExp
          rw [abs_of_pos hq]
          omega
        exact lt_of_lt_of_le h1 h2
      have h3 : q / 2 ^ ulpExp q ≤ (((2 : ℤ) ^ 24 : ℤ) : ℚ) := by
        rw [div_le_iff₀ huq]
        have : (((2 : ℤ) ^ 24 : ℤ) : ℚ) * 2 ^ ulpExp q = 2 ^ (ulpExp q + 24) := by
          rw [zpow_add₀ (by norm_num)]
          push_cast
          ring
        rw [this]
        exact hq2.le
      have h4 := roundHalfEven_mono h3
      rw [roundHalfEven_intCast] at h4
      have h5 : ((roundHalfEven (q / 2 ^ ulpExp q) : ℤ) : ℚ) ≤ (((2 : ℤ) ^ 24 : ℤ) : ℚ) := by
        exact_mod_cast h4
      unfold f32
      calc (roundHalfEven (q / 2 ^ ulpExp q) : ℚ) * 2 ^ ulpExp q
          ≤ (((2 : ℤ) ^ 24 : ℤ) : ℚ) * 2 ^ ulpExp q := mul_le_mul_of_nonneg_right h5 huq.le
        _ = 2 ^ (ulpExp q + 24) := by
          rw [zpow_add₀ (by norm_num)]
          push_cast
          ring
    have hB : (2 : ℚ) ^ (ulpExp r + 23) ≤ f32 r := by
      have hlogr : ulpExp r + 23 = Int.log 2 r := by
        unfold ulpExp at hlt ⊢
        rw [abs_of_pos hr] at hlt ⊢
        omega
      have h1 : (2 : ℚ) ^ (ulpExp r + 23) ≤ r := by
        rw [hlogr]
        have := Int.zpow_log_le_self (b := 2) (by norm_num) hr
        simpa using this
      have h3 : (((2 : ℤ) ^ 23 : ℤ) : ℚ) ≤ r / 2 ^ ulpExp r := by
        rw [le_div_iff₀ hur]
        have : (((2 : ℤ) ^ 23 : ℤ) : ℚ) * 2 ^ ulpExp r = 2 ^ (ulpExp r + 23) := by
          rw [zpow_add₀ (by norm_num)]
          push_cast
          ring
        rw [this]
        exact h1
      have h4 := roundHalfEven_mono h3
      rw [roundHalfEven_intCast] at h4
      have h5 : (((2 : ℤ) ^ 23 : ℤ) : ℚ) ≤ ((roundHalfEven (r / 2 ^ ulpExp r) : ℤ) : ℚ) := by
        exact_mod_cast h4
      unfold f32
      calc (2 : ℚ) ^ (ulpExp r + 23) = (((2 : ℤ) ^ 23 : ℤ) : ℚ) * 2 ^ ulpExp r := by
            rw [zpow_add₀ (by norm_num)]
            push_cast
            ring
        _ ≤ (roundHalfEven (r / 2 ^ ulpExp r) : ℚ) * 2 ^ ulpExp r :=
            mul_le_mul_of_nonneg_right h5 hur.le
    have hmid : (2 : ℚ) ^ (ulpExp q + 24) ≤ 2 ^ (ulpExp r + 23) :=
      zpow_le_zpow_right₀ (by norm_num) (by omega)
    exact le_trans hA (le_trans hmid hB)
  · -- same binade: rounding to the common grid is monotone
    unfold f32
    rw [heq]
    have h1 : q / 2 ^ ulpExp r ≤ r / 2 ^ ulpExp r := div_le_div_of_nonneg_right h hur.le
    have h2 := roundHalfEven_mono h1
    exact mul_le_mul_of_nonneg_right (by exact_mod_cast h2) hur.le

/-- Rounding to binary32 is monotone. -/
theorem f32_mono {q r : ℚ} (h : q ≤ r) : f32 q ≤ f32 r := by
  rcases lt_trichotomy 0 q with hq | hq | hq
  · exact f32_mono_pos hq h
  · subst hq
    rw [f32_zero]
    exact f32_nonneg h
  · rcases le_or_lt 0 r with hr | hr
    · have h1 : f32 q ≤ 0 := by
        have := f32_nonneg (q := -q) (by linarith)
        rw [f32_neg] at this
        linarith
      exact le_trans h1 (f32_nonneg hr)
    · have h1 := f32_mono_pos (q := -r) (r := -q) (by linarith) (by linarith)
      rw [f32_neg, f32_neg] at h1
      linarith

theorem f32_tenth : f32 (1 / 10) = 13421773 / 134217728 := by
  rw [f32_eval (1 / 10) (-4) 13421773 (by norm_num) (by norm_num [abs_of_pos])
    (by norm_num [abs_of_pos]) (by norm_num [abs_lt])]
  norm_num

theorem f32_pos_eq (q v : ℚ) (e n : ℤ) (he : -126 ≤ e) (h1 : (2 : ℚ) ^ e ≤ q)
    (h2 : q < (2 : ℚ) ^ (e + 1)) (hn1 : (n : ℚ) - 1 / 2 < q / 2 ^ (e - 23))
    (hn2 : q / 2 ^ (e - 23) < n + 1 / 2) (hv : v = n * 2 ^ (e - 23)) : f32 q = v := by
  have hq : 0 < q := lt_of_lt_of_le (zpow_pos (by norm_num) e) h1
  rw [hv]
  apply f32_eval q e n he
  · rwa [abs_of_pos hq]
  · rwa [abs_of_pos hq]
  · rw [abs_lt]; constructor <;> linarith

theorem f32_one : f32 1 = 1 :=
  f32_pos_eq 1 1 0 8388608 (by norm_num) (by norm_num) (by norm_num) (by norm_num)
    (by norm_num) (by norm_num)

theorem f32_four : f32 4 = 4 :=
  f32_pos_eq 4 4 2 8388608 (by norm_num) (by norm_num) (by norm_num) (by norm_num)
    (by norm_num) (by norm_num)

theorem f32_sixth : f32 (1 / 6) = 11184811 / 67108864 :=
  f32_pos_eq _ _ (-3) 11184811 (by norm_num) (by norm_num) (by norm_num) (by norm_num)
    (by norm_num) (by norm_num)

theorem toInt_of_nonneg (q : ℚ) (n : ℤ) (h1 : (n : ℚ) ≤ q) (h2 : q < n + 1) (h0 : 0 ≤ n)
    (h3 : n < 2 ^ 31) : toInt q = some n := by
  have hq : 0 ≤ q := le_trans (by exact_mod_cast h0) h1
  have hn : (n : ℚ) + 1 ≤ 2 ^ 31 := by exact_mod_cast h3
  unfold toInt
  rw [if_pos ⟨by linarith, by linarith⟩, if_pos hq]
  congr 1
  rw [Int.floor_eq_iff]
  exact ⟨h1, h2⟩



/-- The near-plane test fails whenever the exact sum is at most 0.1. -/
theorem gate_closed (z : ℚ) (h : z + 5 ≤ 1 / 10) : ¬ (fadd z 5 > f32 (1 / 10)) := by
  unfold fadd
  exact not_lt.mpr (f32_mono h)

/-- A binary32 value between -8 and -4 is a multiple of `2 ^ (-21)`. -/
theorem f32_grid_4_8 (z : ℚ) (hz : f32 z = z) (h1 : -8 < z) (h2 : z ≤ -4) :
    ∃ n : ℤ, z = n / 2097152 := by
  have he : ulpExp z = 2 - 23 := by
    apply ulpExp_eq z 2 (by norm_num)
    · rw [abs_of_neg (by linarith)]; norm_num; linarith
    · rw [abs_of_neg (by linarith)]; norm_num; linarith
  have h3 : f32 z = roundHalfEven (z / 2 ^ ulpExp z) * 2 ^ ulpExp z := rfl
  rw [hz, he] at h3
  generalize roundHalfEven (z / 2 ^ (2 - 23 : ℤ)) = n at h3
  refine ⟨n, ?_⟩
  rw [h3]
  norm_num
  ring

/-- For a binary32 `z`, the near-plane test succeeds whenever the exact sum
exceeds 0.1: no binary32 value lies strictly between -4.9 and the next value
above `-4.9f`. -/
theorem gate_open (z : ℚ) (hz : f32 z = z) (h : 1 / 10 < z + 5) :
    fadd z 5 > f32 (1 / 10) := by
  unfold fadd
  rw [f32_tenth]
  have hw : f32 (209716 / 2097152) = 209716 / 2097152 :=
    f32_pos_eq _ _ (-4) 13421824 (by norm_num) (by norm_num) (by norm_num) (by norm_num)
      (by norm_num) (by norm_num)
  have hge : (209716 / 2097152 : ℚ) ≤ z + 5 := by
    rcases le_or_lt z (-4) with h4 | h4
    · obtain ⟨n, hn⟩ := f32_grid_4_8 z hz (by linarith) h4
      have h5 : (-10276045 : ℚ) < n := by
        rw [hn] at h
        have : (-49 / 10 : ℚ) < n / 2097152 := by linarith
        rw [lt_div_iff₀ (by norm_num)] at this
        linarith
      have h6 : (-10276045 : ℤ) < n := by exact_mod_cast h5
      have h7 : (-10276044 : ℤ) ≤ n := by omega
      have h8 : ((-10276044 : ℤ) : ℚ) ≤ n := by exact_mod_cast h7
      rw [hn]
      have : (-10276044 : ℚ) / 2097152 ≤ n / 2097152 :=
        div_le_div_of_nonneg_right (by exact_mod_cast h7) (by norm_num)
      linarith
    · linarith
  have := f32_mono hge
  rw [hw] at this
  exact lt_of_lt_of_le (by norm_num) this

theorem project3D_eq (x y z zo xp yp xm ym xs ys : ℚ) (ix iy : ℤ)
    (h1 : f32 (z + 5) = zo) (hg : f32 (1 / 10) < zo)
    (h2 : f32 (x / zo) = xp) (h3 : f32 (y / zo) = yp)
    (h4 : f32 (xp * 20) = xm) (h5 : f32 (yp * 10) = ym)
    (h6 : f32 (40 + xm) = xs) (h7 : f32 (12 - ym) = ys)
    (h8 : toInt xs = some ix) (h9 : toInt ys = some iy) :
    project3D x y z = some (ix, iy) := by
  unfold project3D fadd fsub fmul fdiv
  simp only [h1, gt_iff_lt, hg, if_true, h2, h3, h4, h5]
  have hw : ((WIDTH / 2 : Nat) : ℚ) = 40 := by norm_num [WIDTH]
  have hh : ((HEIGHT / 2 : Nat) : ℚ) = 12 := by norm_num [HEIGHT]
  rw [hw, hh, h6, h7, h8, h9]
  rfl


theorem f32_of_neg (q r v : ℚ) (h : q = -r) (hv : f32 r = v) : f32 q = -v := by
  rw [h, f32_neg, hv]

theorem f32_of_eq (q r v : ℚ) (h : q = r) (hv : f32 r = v) : f32 q = v := by
  rw [h, hv]

theorem f32_six : f32 6 = 6 :=
  f32_pos_eq 6 6 2 12582912 (by norm_num) (by norm_num) (by norm_num) (by norm_num)
    (by norm_num) (by norm_num)

theorem f32_quarter : f32 (1 / 4) = 1 / 4 :=
  f32_pos_eq _ _ (-2) 8388608 (by norm_num) (by norm_num) (by norm_num) (by norm_num)
    (by norm_num) (by norm_num)

theorem f32_five : f32 5 = 5 :=
  f32_pos_eq 5 5 2 10485760 (by norm_num) (by norm_num) (by norm_num) (by norm_num)
    (by norm_num) (by norm_num)

theorem f32_five_halves : f32 (5 / 2) = 5 / 2 :=
  f32_pos_eq _ _ 1 10485760 (by norm_num) (by norm_num) (by norm_num) (by norm_num)
    (by norm_num) (by norm_num)

theorem f32_sixth_mul_20 : f32 (11184811 / 67108864 * 20) = 13981014 / 4194304 :=
  f32_pos_eq _ _ 1 13981014 (by norm_num) (by norm_num) (by norm_num) (by norm_num)
    (by norm_num) (by norm_num)

theorem f32_sixth_mul_10 : f32 (11184811 / 67108864 * 10) = 13981014 / 8388608 :=
  f32_pos_eq _ _ 0 13981014 (by norm_num) (by norm_num) (by norm_num) (by norm_num)
    (by norm_num) (by norm_num)

theorem f32_45 : f32 45 = 45 :=
  f32_pos_eq 45 45 5 11796480 (by norm_num) (by norm_num) (by norm_num) (by norm_num)
    (by norm_num) (by norm_num)

theorem f32_35 : f32 35 = 35 :=
  f32_pos_eq 35 35 5 9175040 (by norm_num) (by norm_num) (by norm_num) (by norm_num)
    (by norm_num) (by norm_num)

theorem f32_19_halves : f32 (19 / 2) = 19 / 2 :=
  f32_pos_eq _ _ 3 9961472 (by norm_num) (by norm_num) (by norm_num) (by norm_num)
    (by norm_num) (by norm_num)

theorem f32_29_halves : f32 (29 / 2) = 29 / 2 :=
  f32_pos_eq _ _ 3 15204352 (by norm_num) (by norm_num) (by norm_num) (by norm_num)
    (by norm_num) (by norm_num)

theorem f32_front_right : f32 (40 + 13981014 / 4194304) = 11359573 / 262144 :=
  f32_pos_eq _ _ 5 11359573 (by norm_num) (by norm_num) (by norm_num) (by norm_num)
    (by norm_num) (by norm_num)

theorem f32_front_left : f32 (40 - 13981014 / 4194304) = 9611947 / 262144 :=
  f32_pos_eq _ _ 5 9611947 (by norm_num) (by norm_num) (by norm_num) (by norm_num)
    (by norm_num) (by norm_num)

theorem f32_front_top : f32 (12 - 13981014 / 8388608) = 10835285 / 1048576 :=
  f32_pos_eq _ _ 3 10835285 (by norm_num) (by norm_num) (by norm_num) (by norm_num)
    (by norm_num) (by norm_num)

theorem f32_front_bottom : f32 (12 + 13981014 / 8388608) = 14330539 / 1048576 :=
  f32_pos_eq _ _ 3 14330539 (by norm_num) (by norm_num) (by norm_num) (by norm_num)
    (by norm_num) (by norm_num)

theorem gate_4 : f32 (1 / 10) < 4 := by rw [f32_tenth]; norm_num

theorem gate_6 : f32 (1 / 10) < 6 := by rw [f32_tenth]; norm_num

theorem project3D_v0 : project3D (-1) (-1) (-1) = some (35, 14) :=
  project3D_eq (-1) (-1) (-1) 4 (-(1 / 4)) (-(1 / 4)) (-5) (-(5 / 2)) 35 (29 / 2) 35 14
    (f32_of_eq _ 4 _ (by norm_num) f32_four) gate_4
    (f32_of_neg _ (1 / 4) _ (by norm_num) f32_quarter)
    (f32_of_neg _ (1 / 4) _ (by norm_num) f32_quarter)
    (f32_of_neg _ 5 _ (by norm_num) f32_five)
    (f32_of_neg _ (5 / 2) _ (by norm_num) f32_five_halves)
    (f32_of_eq _ 35 _ (by norm_num) f32_35)
    (f32_of_eq _ (29 / 2) _ (by norm_num) f32_29_halves)
    (toInt_of_nonneg _ _ (by norm_num) (by norm_num) (by norm_num) (by norm_num))
    (toInt_of_nonneg _ _ (by norm_num) (by norm_num) (by norm_num) (by norm_num))

theorem project3D_v1 : project3D 1 (-1) (-1) = some (45, 14) :=
  project3D_eq 1 (-1) (-1) 4 (1 / 4) (-(1 / 4)) 5 (-(5 / 2)) 45 (29 / 2) 45 14
    (f32_of_eq _ 4 _ (by norm_num) f32_four) gate_4
    (f32_of_eq _ (1 / 4) _ (by norm_num) f32_quarter)
    (f32_of_neg _ (1 / 4) _ (by norm_num) f32_quarter)
    (f32_of_eq _ 5 _ (by norm_num) f32_five)
    (f32_of_neg _ (5 / 2) _ (by norm_num) f32_five_halves)
    (f32_of_eq _ 45 _ (by norm_num) f32_45)
    (f32_of_eq _ (29 / 2) _ (by norm_num) f32_29_halves)
    (toInt_of_nonneg _ _ (by norm_num) (by norm_num) (by norm_num) (by norm_num))
    (toInt_of_nonneg _ _ (by norm_num) (by norm_num) (by norm_num) (by norm_num))

theorem project3D_v2 : project3D 1 1 (-1) = some (45, 9) :=
  project3D_eq 1 1 (-1) 4 (1 / 4) (1 / 4) 5 (5 / 2) 45 (19 / 2) 45 9
    (f32_of_eq _ 4 _ (by norm_num) f32_four) gate_4
    (f32_of_eq _ (1 / 4) _ (by norm_num) f32_quarter)
    (f32_of_eq _ (1 / 4) _ (by norm_num) f32_quarter)
    (f32_of_eq _ 5 _ (by norm_num) f32_five)
    (f32_of_eq _ (5 / 2) _ (by norm_num) f32_five_halves)
    (f32_of_eq _ 45 _ (by norm_num) f32_45)
    (f32_of_eq _ (19 / 2) _ (by norm_num) f32_19_halves)
    (toInt_of_nonneg _ _ (by norm_num) (by norm_num) (by norm_num) (by norm_num))
    (toInt_of_nonneg _ _ (by norm_num) (by norm_num) (by norm_num) (by norm_num))

theorem project3D_v3 : project3D (-1) 1 (-1) = some (35, 9) :=
  project3D_eq (-1) 1 (-1) 4 (-(1 / 4)) (1 / 4) (-5) (5 / 2) 35 (19 / 2) 35 9
    (f32_of_eq _ 4 _ (by norm_num) f32_four) gate_4
    (f32_of_neg _ (1 / 4) _ (by norm_num) f32_quarter)
    (f32_of_eq _ (1 / 4) _ (by norm_num) f32_quarter)
    (f32_of_neg _ 5 _ (by norm_num) f32_five)
    (f32_of_eq _ (5 / 2) _ (by norm_num) f32_five_halves)
    (f32_of_eq _ 35 _ (by norm_num) f32_35)
    (f32_of_eq _ (19 / 2) _ (by norm_num) f32_19_halves)
    (toInt_of_nonneg _ _ (by norm_num) (by norm_num) (by norm_num) (by norm_num))
    (toInt_of_nonneg _ _ (by norm_num) (by norm_num) (by norm_num) (by norm_num))

theorem project3D_v4 : project3D (-1) (-1) 1 = some (36, 13) :=
  project3D_eq (-1) (-1) 1 6 (-(11184811 / 67108864)) (-(11184811 / 67108864))
    (-(13981014 / 4194304)) (-(13981014 / 8388608)) (9611947 / 262144) (14330539 / 1048576) 36 13
    (f32_of_eq _ 6 _ (by norm_num) f32_six) gate_6
    (f32_of_neg _ (1 / 6) _ (by norm_num) f32_sixth)
    (f32_of_neg _ (1 / 6) _ (by norm_num) f32_sixth)
    (f32_of_neg _ _ _ (by ring) f32_sixth_mul_20)
    (f32_of_neg _ _ _ (by ring) f32_sixth_mul_10)
    (f32_of_eq _ _ _ (by ring) f32_front_left)
    (f32_of_eq _ _ _ (by ring) f32_front_bottom)
    (toInt_of_nonneg _ _ (by norm_num) (by norm_num) (by norm_num) (by norm_num))
    (toInt_of_nonneg _ _ (by norm_num) (by norm_num) (by norm_num) (by norm_num))

theorem project3D_v5 : project3D 1 (-1) 1 = some (43, 13) :=
  project3D_eq 1 (-1) 1 6 (11184811 / 67108864) (-(11184811 / 67108864))
    (13981014 / 4194304) (-(13981014 / 8388608)) (11359573 / 262144) (14330539 / 1048576) 43 13
    (f32_of_eq _ 6 _ (by norm_num) f32_six) gate_6
    (f32_of_eq _ (1 / 6) _ (by norm_num) f32_sixth)
    (f32_of_neg _ (1 / 6) _ (by norm_num) f32_sixth)
    (f32_of_eq _ _ _ (by ring) f32_sixth_mul_20)
    (f32_of_neg _ _ _ (by ring) f32_sixth_mul_10)
    (f32_of_eq _ _ _ (by ring) f32_front_right)
    (f32_of_eq _ _ _ (by ring) f32_front_bottom)
    (toInt_of_nonneg _ _ (by norm_num) (by norm_num) (by norm_num) (by norm_num))
    (toInt_of_nonneg _ _ (by norm_num) (by norm_num) (by norm_num) (by norm_num))

theorem project3D_v6 : project3D 1 1 1 = some (43, 10) :=
  project3D_eq 1 1 1 6 (11184811 / 67108864) (11184811 / 67108864)
    (13981014 / 4194304) (13981014 / 8388608) (11359573 / 262144) (10835285 / 1048576) 43 10
    (f32_of_eq _ 6 _ (by norm_num) f32_six) gate_6
    (f32_of_eq _ (1 / 6) _ (by norm_num) f32_sixth)
    (f32_of_eq _ (1 / 6) _ (by norm_num) f32_sixth)
    (f32_of_eq _ _ _ (by ring) f32_sixth_mul_20)
    (f32_of_eq _ _ _ (by ring) f32_sixth_mul_10)
    (f32_of_eq _ _ _ (by ring) f32_front_right)
    (f32_of_eq _ _ _ (by ring) f32_front_top)
    (toInt_of_nonneg _ _ (by norm_num) (by norm_num) (by norm_num) (by norm_num))
    (toInt_of_nonneg _ _ (by norm_num) (by norm_num) (by norm_num) (by norm_num))

theorem project3D_v7 : project3D (-1) 1 1 = some (36, 10) :=
  project3D_eq (-1) 1 1 6 (-(11184811 / 67108864)) (11184811 / 67108864)
    (-(13981014 / 4194304)) (13981014 / 8388608) (9611947 / 262144) (10835285 / 1048576) 36 10
    (f32_of_eq _ 6 _ (by norm_num) f32_six) gate_6
    (f32_of_neg _ (1 / 6) _ (by norm_num) f32_sixth)
    (f32_of_eq _ (1 / 6) _ (by norm_num) f32_sixth)
    (f32_of_neg _ _ _ (by ring) f32_sixth_mul_20)
    (f32_of_eq _ _ _ (by ring) f32_sixth_mul_10)
    (f32_of_eq _ _ _ (by ring) f32_front_left)
    (f32_of_eq _ _ _ (by ring) f32_front_top)
    (toInt_of_nonneg _ _ (by norm_num) (by norm_num) (by norm_num) (by norm_num))
    (toInt_of_nonneg _ _ (by norm_num) (by norm_num) (by norm_num) (by norm_num))


theorem fadd_one_zero : fadd 1 0 = 1 := f32_of_eq _ 1 _ (by norm_num) f32_one

theorem fadd_neg_one_zero : fadd (-1) 0 = -1 := f32_of_neg _ 1 _ (by norm_num) f32_one

/-- The projections of the eight vertices of `cube` at depth offset 0. -/
theorem projectVertices_cube :
    projectVertices cube 0 8 =
      some [(35, 14), (45, 14), (45, 9), (35, 9), (36, 13), (43, 13), (43, 10), (36, 10)] := by
  have hr : List.range 8 = [0, 1, 2, 3, 4, 5, 6, 7] := by decide
  unfold projectVertices
  rw [hr]
  simp only [List.mapM_cons, List.mapM_nil]
  simp [cube, fadd_one_zero, fadd_neg_one_zero, project3D_v0,
    project3D_v1, project3D_v2, project3D_v3, project3D_v4, project3D_v5, project3D_v6,
    project3D_v7]

/-! ## Scene loops: proofs -/

/-- The edge loop returns when every edge has its two indices inside `projected`
and is no longer than the fuel; it only stores `'#'`. -/
theorem drawEdges_spec (fuel : Nat) (projected : List (Int × Int)) :
    ∀ (edgeList : List (Nat × Nat)) (screen : Screen),
      (∀ e ∈ edgeList, ∃ p0 p1, projected[e.1]? = some p0 ∧ projected[e.2]? = some p1 ∧
        lineLen p0.1 p0.2 p1.1 p1.2 < fuel) →
      ∃ screen2, drawEdges fuel screen projected edgeList = some screen2 ∧
        ∀ (i : Fin HEIGHT) (j : Fin WIDTH), screen2 i j = screen i j ∨ screen2 i j = '#' := by
  intro edgeList
  induction edgeList with
  | nil =>
    intro screen _
    exact ⟨screen, rfl, fun i j => Or.inl rfl⟩
  | cons e rest ih =>
    intro screen h
    obtain ⟨p0, p1, h0, h1, hlen⟩ := h e (List.mem_cons_self _ _)
    obtain ⟨screen2, hs2, hcells⟩ := ih (plotAll '#' (linePoints p0.1 p0.2 p1.1 p1.2) screen)
      (fun e2 he2 => h e2 (List.mem_cons_of_mem _ he2))
    refine ⟨screen2, ?_, ?_⟩
    · unfold drawEdges at hs2 ⊢
      rw [List.foldlM_cons]
      simp only [h0, h1, drawLine_eq fuel screen p0.1 p0.2 p1.1 p1.2 '#' hlen,
        Option.bind_eq_bind, Option.some_bind, Option.pure_def]
      exact hs2
    · intro i j
      rcases hcells i j with hc | hc
      · rw [hc, plotAll_apply]
        split
        · right; rfl
        · left; rfl
      · right; exact hc

theorem drawMarkers_aux :
    ∀ (l : List (Int × Int)) (pre : List (Int × Int)) (screen : Screen),
      (List.range' pre.length l.length).foldlM (fun scr i => do
        let p ← (pre ++ l)[i]?
        pure (drawPixel scr p.1 p.2 '*')) screen = some (plotAll '*' l screen) := by
  intro l
  induction l with
  | nil => intro pre screen; rfl
  | cons a l ih =>
    intro pre screen
    have h := ih (pre ++ [a]) (drawPixel screen a.1 a.2 '*')
    rw [List.length_append, List.length_singleton, List.append_assoc, List.singleton_append] at h
    rw [List.length_cons, List.range'_succ, List.foldlM_cons]
    have hget : (pre ++ a :: l)[pre.length]? = some a := by
      rw [List.getElem?_append_right (le_refl _)]
      simp
    simp only [hget, Option.bind_eq_bind, Option.some_bind, Option.pure_def]
    exact h

/-- The marker loop over a `projected` array of `numVertices` entries plots every
entry, in order. -/
theorem drawMarkers_eq (screen : Screen) (projected : List (Int × Int)) :
    drawMarkers screen projected projected.length = some (plotAll '*' projected screen) := by
  have h := drawMarkers_aux projected [] screen
  unfold drawMarkers
  rw [List.range_eq_range']
  simpa using h

theorem store_fold_row (i : Fin HEIGHT) (c : Char) :
    ∀ (cols : List (Fin WIDTH)) (screen : Screen) (a : Fin HEIGHT) (b : Fin WIDTH),
      cols.foldl (fun scr j => scr.store i j c) screen a b =
        if a = i ∧ b ∈ cols then c else screen a b := by
  intro cols
  induction cols with
  | nil => intro screen a b; simp
  | cons j rest ih =>
    intro screen a b
    rw [List.foldl_cons, ih, store_apply]
    by_cases ha : a = i <;> by_cases hb : b ∈ rest <;> by_cases hj : b = j <;>
      simp [ha, hb, hj]

/-- After `clearScreen` every cell holds a space. -/
theorem clearScreen_apply (screen : Screen) (a : Fin HEIGHT) (b : Fin WIDTH) :
    clearScreen screen a b = ' ' := by
  have hrows : ∀ (rows : List (Fin HEIGHT)) (scr : Screen),
      rows.foldl (fun scr i =>
        (List.finRange WIDTH).foldl (fun scr2 j => scr2.store i j ' ') scr) scr a b =
        if a ∈ rows then ' ' else scr a b := by
    intro rows
    induction rows with
    | nil => intro scr; simp
    | cons i rest ih =>
      intro scr
      rw [List.foldl_cons, ih, store_fold_row]
      by_cases ha : a ∈ rest <;> by_cases hi : a = i <;> simp [ha, hi, List.mem_finRange]
  unfold clearScreen
  rw [hrows]
  simp [List.mem_finRange]

theorem plotAll_offscreen (c : Char) (pts : List (Int × Int)) (screen : Screen)
    (h : ∀ p ∈ pts, ¬ InBounds p) : plotAll c pts screen = screen := by
  funext i j
  rw [plotAll_apply]
  split
  · rename_i hmem
    exfalso
    apply h _ hmem
    have := i.isLt
    have := j.isLt
    simp only [InBounds]
    omega
  · rfl

theorem cross_product_eq (a b dx dy sx sy X Y : Int) (hsx2 : sx * sx = 1) (hsy2 : sy * sy = 1)
    (e1 : X = dx * sx) (e2 : Y = dy * sy) :
    (X - a) * Y - (Y - b) * X = -(sx * sy) * (a * sx * dy - b * sy * dx) := by
  subst e1 e2
  linear_combination (a * sy * dy) * hsx2 - (b * sx * dx) * hsy2

/-- The cross product that measures how far a loop state is from the ideal line
is tied to the error term, so it stays within half the major extent. -/
theorem lineInv_deviation (x0 y0 x1 y1 : Int) (n : Nat) (s : LineState)
    (h : LineInv x1 y1 (cAbs (x1 - x0)) (cAbs (y1 - y0)) (lineDir x0 x1) (lineDir y0 y1) n s) :
    2 * |(s.x - x0) * (y1 - y0) - (s.y - y0) * (x1 - x0)| ≤
      max (cAbs (x1 - x0)) (cAbs (y1 - y0)) := by
  have hdx := cAbs_eq_mul_dir x0 x1
  have hdy := cAbs_eq_mul_dir y0 y1
  have hsx2 : lineDir x0 x1 * lineDir x0 x1 = 1 := by
    rcases lineDir_cases x0 x1 with h | h <;> rw [h] <;> rfl
  have hsy2 : lineDir y0 y1 * lineDir y0 y1 = 1 := by
    rcases lineDir_cases y0 y1 with h | h <;> rw [h] <;> rfl
  have e1 : x1 - x0 = cAbs (x1 - x0) * lineDir x0 x1 := by
    linear_combination (-(lineDir x0 x1)) * hdx - (x1 - x0) * hsx2
  have e2 : y1 - y0 = cAbs (y1 - y0) * lineDir y0 y1 := by
    linear_combination (-(lineDir y0 y1)) * hdy - (y1 - y0) * hsy2
  have hcross := cross_product_eq (x1 - s.x) (y1 - s.y) (cAbs (x1 - x0)) (cAbs (y1 - y0))
    (lineDir x0 x1) (lineDir y0 y1) (x1 - x0) (y1 - y0) hsx2 hsy2 e1 e2
  have e3 : x1 - x0 - (x1 - s.x) = s.x - x0 := by ring
  have e4 : y1 - y0 - (y1 - s.y) = s.y - y0 := by ring
  rw [e3, e4] at hcross
  rw [hcross]
  generalize hD : (x1 - s.x) * lineDir x0 x1 * cAbs (y1 - y0) -
    (y1 - s.y) * lineDir y0 y1 * cAbs (x1 - x0) = D
  have hbound : -(max (cAbs (x1 - x0)) (cAbs (y1 - y0))) ≤ 2 * D ∧
      2 * D ≤ max (cAbs (x1 - x0)) (cAbs (y1 - y0)) := by
    rcases h with ⟨_, h1, _, h3, _, h5, h6, h7, _⟩ | ⟨_, h1, h3, _, h5, h6, h7, _⟩
    · rw [max_eq_left h1]
      have hn : (x1 - s.x) * lineDir x0 x1 = n := by
        rw [h3]; linear_combination (n : Int) * hsx2
      rw [hn] at hD
      constructor <;> omega
    · rw [max_eq_right h1.le]
      have hn : (y1 - s.y) * lineDir y0 y1 = n := by
        rw [h3]; linear_combination (n : Int) * hsy2
      rw [hn] at hD
      constructor <;> omega
  have habs : |-(lineDir x0 x1 * lineDir y0 y1) * D| = |D| := by
    rcases lineDir_cases x0 x1 with h | h <;> rcases lineDir_cases y0 y1 with h2 | h2 <;>
      rw [h, h2] <;> simp
  rw [habs]
  rcases abs_cases D with ⟨hD1, _⟩ | ⟨hD1, _⟩ <;> rw [hD1] <;> omega

/-- Every plotted point is within half a cell of the ideal line. -/
theorem linePoints_deviation (x0 y0 x1 y1 : Int) (p : Int × Int)
    (hp : p ∈ linePoints x0 y0 x1 y1) :
    2 * |(p.1 - x0) * (y1 - y0) - (p.2 - y0) * (x1 - x0)| ≤
      max (cAbs (x1 - x0)) (cAbs (y1 - y0)) := by
  obtain ⟨k, hk, rfl⟩ := (mem_linePoints x0 y0 x1 y1 p).mp hp
  by_cases hne : x0 = x1 ∧ y0 = y1
  · have h0 : lineLen x0 y0 x1 y1 = 0 := (lineLen_eq_zero x0 y0 x1 y1).mpr hne
    have hk0 : k = 0 := by omega
    subst hk0
    simp [lineStateAt, lineInit, LineState.pos, hne.1, hne.2, cAbs]
  · exact lineInv_deviation x0 y0 x1 y1 _ _ (lineInv_at x0 y0 x1 y1 hne k hk)

/-- Consecutive plotted points: the coordinate along a major axis moves by one
cell towards the end point. -/
theorem linePoints_major_step (x0 y0 x1 y1 : Int) :
    (cAbs (y1 - y0) ≤ cAbs (x1 - x0) →
      List.Chain' (fun p q : Int × Int => q.1 = p.1 + Int.sign (x1 - x0) ∧ |q.1 - p.1| = 1)
        (linePoints x0 y0 x1 y1)) ∧
    (cAbs (x1 - x0) ≤ cAbs (y1 - y0) →
      List.Chain' (fun p q : Int × Int => q.2 = p.2 + Int.sign (y1 - y0) ∧ |q.2 - p.2| = 1)
        (linePoints x0 y0 x1 y1)) := by
  have hkey : ∀ m, m < lineLen x0 y0 x1 y1 →
      ¬ (x0 = x1 ∧ y0 = y1) := by
    intro m hm h
    have := (lineLen_eq_zero x0 y0 x1 y1).mpr h
    omega
  have hunit : ∀ (a d : Int) (k : Nat), d = 1 ∨ d = -1 →
      a + ((k + 1 : Nat) : Int) * d = a + (k : Int) * d + d ∧
        |a + ((k + 1 : Nat) : Int) * d - (a + (k : Int) * d)| = 1 := by
    intro a d k hd
    rcases hd with rfl | rfl
    · refine ⟨by push_cast; ring, ?_⟩
      have : a + ((k + 1 : Nat) : Int) * 1 - (a + (k : Int) * 1) = 1 := by push_cast; ring
      rw [this]; rfl
    · refine ⟨by push_cast; ring, ?_⟩
      have : a + ((k + 1 : Nat) : Int) * -1 - (a + (k : Int) * -1) = -1 := by push_cast; ring
      rw [this]; rfl
  constructor
  · intro hmaj
    unfold linePoints lineTrace
    rw [List.chain'_map, List.chain'_range_succ]
    intro m hm
    have hne := hkey m hm
    have hx : x0 ≠ x1 := by
      intro hx
      have h1 : cAbs (x1 - x0) = 0 := by simp [hx, cAbs]
      have h2 := cAbs_nonneg (y1 - y0)
      have h3 : cAbs (y1 - y0) = 0 := by omega
      apply hne
      refine ⟨hx, ?_⟩
      unfold cAbs at h3
      split_ifs at h3 <;> omega
    have ha := lineStateAt_coords x0 y0 x1 y1 hne m hm.le
    have hb := lineStateAt_coords x0 y0 x1 y1 hne (m + 1) hm
    unfold lineStateAt at ha hb
    simp only [LineState.pos]
    rw [← lineDir_eq_sign x0 x1 hx]
    rcases ha with ⟨_, h2, _⟩ | ⟨h1, _⟩
    · rcases hb with ⟨_, h4, _⟩ | ⟨h3, _⟩
      · rw [h2, h4]
        exact hunit x0 _ m (lineDir_cases x0 x1)
      · omega
    · omega
  · intro hmaj
    unfold linePoints lineTrace
    rw [List.chain'_map, List.chain'_range_succ]
    intro m hm
    have hne := hkey m hm
    have hy : y0 ≠ y1 := by
      intro hy
      have h1 : cAbs (y1 - y0) = 0 := by simp [hy, cAbs]
      have h2 := cAbs_nonneg (x1 - x0)
      have h3 : cAbs (x1 - x0) = 0 := by omega
      apply hne
      refine ⟨?_, hy⟩
      unfold cAbs at h3
      split_ifs at h3 <;> omega
    simp only [LineState.pos]
    rw [← lineDir_eq_sign y0 y1 hy]
    rcases hmaj.lt_or_eq with hlt | heq
    · have ha := lineStateAt_coords x0 y0 x1 y1 hne m hm.le
      have hb := lineStateAt_coords x0 y0 x1 y1 hne (m + 1) hm
      unfold lineStateAt at ha hb
      rcases ha with ⟨h1, _⟩ | ⟨_, h2, _⟩
      · omega
      · rcases hb with ⟨h3, _⟩ | ⟨_, h4, _⟩
        · omega
        · rw [h2, h4]
          exact hunit y0 _ m (lineDir_cases y0 y1)
    · have ha := lineStateAt_straight x0 y0 x1 y1 (Or.inr (Or.inr heq)) m hm.le
      have hb := lineStateAt_straight x0 y0 x1 y1 (Or.inr (Or.inr heq)) (m + 1) hm
      unfold lineStateAt at ha hb
      simp only [LineState.pos, Prod.mk.injEq] at ha hb
      rw [ha.2, hb.2, ← lineDir_eq_sign y0 y1 hy]
      exact hunit y0 _ m (lineDir_cases y0 y1)

theorem linePoints_length (x0 y0 x1 y1 : Int) :
    (linePoints x0 y0 x1 y1).length = lineLen x0 y0 x1 y1 + 1 := by
  unfold linePoints
  exact lineTrace_length _ _ _ _ _ _

/-- In front of the near plane `project3D` converts the two screen values. -/
theorem project3D_of_open (x y z : ℚ) (h : fadd z 5 > f32 (1 / 10)) :
    project3D x y z =
      (toInt (screenXf x z)).bind fun a => (toInt (screenYf y z)).bind fun b => some (a, b) := by
  unfold project3D screenXf screenYf
  simp only [h, if_true]
  rfl

theorem project3D_open_eq_some (x y z : ℚ) (h : fadd z 5 > f32 (1 / 10)) (a b : Int) :
    project3D x y z = some (a, b) ↔
      toInt (screenXf x z) = some a ∧ toInt (screenYf y z) = some b := by
  rw [project3D_of_open x y z h]
  cases hx : toInt (screenXf x z) with
  | none => simp
  | some a2 =>
    cases hy : toInt (screenYf y z) with
    | none => simp
    | some b2 => simp

theorem toInt_eq_neg_one (q : ℚ) : toInt q = some (-1) ↔ -2 < q ∧ q ≤ -1 := by
  unfold toInt
  constructor
  · intro h
    split_ifs at h with hr h0
    · have h1 : ⌊q⌋ = -1 := by simpa using h
      have h2 : (0 : ℤ) ≤ ⌊q⌋ := Int.floor_nonneg.mpr h0
      omega
    · have h1 : ⌈q⌉ = -1 := by simpa using h
      rw [Int.ceil_eq_iff] at h1
      push_cast at h1
      constructor <;> linarith [h1.1, h1.2]
  · rintro ⟨h1, h2⟩
    rw [if_pos ⟨by linarith, by linarith⟩, if_neg (by linarith)]
    congr 1
    rw [Int.ceil_eq_iff]
    push_cast
    constructor <;> linarith

theorem toInt_of_neg (q : ℚ) (n : ℤ) (h1 : (n : ℚ) - 1 < q) (h2 : q ≤ n) (h0 : n < 0)
    (h3 : -(2 ^ 31) ≤ n) : toInt q = some n := by
  have hn : (n : ℚ) ≤ -1 := by exact_mod_cast (by omega : n ≤ -1)
  have hlow : (-(2 ^ 31) : ℚ) ≤ n := by exact_mod_cast h3
  unfold toInt
  rw [if_pos ⟨by linarith, by linarith⟩, if_neg (by linarith)]
  congr 1
  rw [Int.ceil_eq_iff]
  exact ⟨h1, h2⟩


/-- C17 counterexample input: a point in front of the camera whose projection
truncates to (-1, -1). -/
theorem project3D_offscreen_sentinel : project3D (-33 / 4) (21 / 4) (-1) = some (-1, -1) := by
  have h1 : f32 (33 / 16) = 33 / 16 :=
    f32_pos_eq _ _ 1 8650752 (by norm_num) (by norm_num) (by norm_num) (by norm_num)
      (by norm_num) (by norm_num)
  have h2 : f32 (21 / 16) = 21 / 16 :=
    f32_pos_eq _ _ 0 11010048 (by norm_num) (by norm_num) (by norm_num) (by norm_num)
      (by norm_num) (by norm_num)
  have h3 : f32 (165 / 4) = 165 / 4 :=
    f32_pos_eq _ _ 5 10813440 (by norm_num) (by norm_num) (by norm_num) (by norm_num)
      (by norm_num) (by norm_num)
  have h4 : f32 (105 / 8) = 105 / 8 :=
    f32_pos_eq _ _ 3 13762560 (by norm_num) (by norm_num) (by norm_num) (by norm_num)
      (by norm_num) (by norm_num)
  have h5 : f32 (5 / 4) = 5 / 4 :=
    f32_pos_eq _ _ 0 10485760 (by norm_num) (by norm_num) (by norm_num) (by norm_num)
      (by norm_num) (by norm_num)
  have h6 : f32 (9 / 8) = 9 / 8 :=
    f32_pos_eq _ _ 0 9437184 (by norm_num) (by norm_num) (by norm_num) (by norm_num)
      (by norm_num) (by norm_num)
  exact project3D_eq (-33 / 4) (21 / 4) (-1) 4 (-(33 / 16)) (21 / 16) (-(165 / 4)) (105 / 8)
    (-(5 / 4)) (-(9 / 8)) (-1) (-1)
    (f32_of_eq _ 4 _ (by norm_num) f32_four) gate_4
    (f32_of_neg _ (33 / 16) _ (by norm_num) h1)
    (f32_of_eq _ (21 / 16) _ (by norm_num) h2)
    (f32_of_neg _ (165 / 4) _ (by norm_num) h3)
    (f32_of_eq _ (105 / 8) _ (by norm_num) h4)
    (f32_of_neg _ (5 / 4) _ (by norm_num) h5)
    (f32_of_neg _ (9 / 8) _ (by norm_num) h6)
    (toInt_of_neg _ _ (by norm_num) (by norm_num) (by norm_num) (by norm_num))
    (toInt_of_neg _ _ (by norm_num) (by norm_num) (by norm_num) (by norm_num))

theorem toInt_eq_some_iff (q : ℚ) (a : ℤ) :
    toInt q = some a ↔ (-(2 ^ 31 : ℚ) - 1 < q ∧ q < 2 ^ 31) ∧ a = truncQ q := by
  unfold toInt truncQ
  split_ifs with hr h0 <;> simp [hr, eq_comm]

theorem truncQ_mono {q r : ℚ} (h : q ≤ r) : truncQ q ≤ truncQ r := by
  unfold truncQ
  split_ifs with hq hr hr
  · exact Int.floor_mono h
  · exact absurd (le_trans hq h) hr
  · have h1 : ⌈q⌉ ≤ 0 := Int.ceil_le.mpr (by push_cast; linarith)
    have h2 : 0 ≤ ⌊r⌋ := Int.floor_nonneg.mpr hr
    omega
  · exact Int.ceil_mono h

theorem truncQ_intCast (c : ℤ) : truncQ (c : ℚ) = c := by
  unfold truncQ
  split_ifs <;> simp

/-- A conversion that is defined stays defined for a value between the converted
one and an integer above it, and the results are ordered accordingly. -/
theorem toInt_le_of_le (q r : ℚ) (a c : ℤ) (hq : toInt q = some a) (h1 : q ≤ r)
    (h2 : r ≤ c) (hc : c < 2 ^ 31) : ∃ b, toInt r = some b ∧ a ≤ b ∧ b ≤ c := by
  rw [toInt_eq_some_iff] at hq
  obtain ⟨⟨hlo, _⟩, ha⟩ := hq
  have hc2 : (c : ℚ) < 2 ^ 31 := by exact_mod_cast hc
  refine ⟨truncQ r, ?_, ?_, ?_⟩
  · rw [toInt_eq_some_iff]
    exact ⟨⟨by linarith, by linarith⟩, rfl⟩
  · rw [ha]; exact truncQ_mono h1
  · have := truncQ_mono h2
    rwa [truncQ_intCast] at this

theorem toInt_ge_of_ge (q r : ℚ) (a c : ℤ) (hq : toInt q = some a) (h1 : r ≤ q)
    (h2 : (c : ℚ) ≤ r) (hc : -(2 ^ 31) ≤ c) : ∃ b, toInt r = some b ∧ c ≤ b ∧ b ≤ a := by
  rw [toInt_eq_some_iff] at hq
  obtain ⟨⟨_, hhi⟩, ha⟩ := hq
  have hc2 : (-(2 ^ 31) : ℚ) ≤ c := by exact_mod_cast hc
  refine ⟨truncQ r, ?_, ?_, ?_⟩
  · rw [toInt_eq_some_iff]
    exact ⟨⟨by linarith, by linarith⟩, rfl⟩
  · have := truncQ_mono h2
    rwa [truncQ_intCast] at this
  · rw [ha]; exact truncQ_mono h1

theorem fdiv_neg (t zo : ℚ) : fdiv (-t) zo = -fdiv t zo := by
  unfold fdiv
  rw [neg_div, f32_neg]

theorem fmul_neg (p k : ℚ) : fmul (-p) k = -fmul p k := by
  unfold fmul
  rw [neg_mul, f32_neg]

/-- The scaled perspective quotient `(t / zOffset) * k` of a non-negative coordinate
does not grow when `zOffset` grows. -/
theorem scaled_quotient_antitone (t k zo1 zo2 : ℚ) (hk : 0 ≤ k) (h0 : 0 < zo1)
    (h12 : zo1 ≤ zo2) (ht : 0 ≤ t) :
    0 ≤ fmul (fdiv t zo2) k ∧ fmul (fdiv t zo2) k ≤ fmul (fdiv t zo1) k := by
  have hzo2 : 0 < zo2 := lt_of_lt_of_le h0 h12
  have hq : t / zo2 ≤ t / zo1 := div_le_div_of_nonneg_left ht h0 h12
  have hp2 : 0 ≤ fdiv t zo2 := f32_nonneg (div_nonneg ht hzo2.le)
  have hp : fdiv t zo2 ≤ fdiv t zo1 := f32_mono hq
  exact ⟨f32_nonneg (mul_nonneg hp2 hk), f32_mono (mul_le_mul_of_nonneg_right hp hk)⟩

theorem scaled_quotient_monotone_neg (t k zo1 zo2 : ℚ) (hk : 0 ≤ k) (h0 : 0 < zo1)
    (h12 : zo1 ≤ zo2) (ht : t ≤ 0) :
    fmul (fdiv t zo1) k ≤ fmul (fdiv t zo2) k ∧ fmul (fdiv t zo2) k ≤ 0 := by
  have h := scaled_quotient_antitone (-t) k zo1 zo2 hk h0 h12 (by linarith)
  rw [fdiv_neg, fdiv_neg, fmul_neg, fmul_neg] at h
  constructor <;> linarith [h.1, h.2]

theorem f32_40 : f32 40 = 40 :=
  f32_pos_eq 40 40 5 10485760 (by norm_num) (by norm_num) (by norm_num) (by norm_num)
    (by norm_num) (by norm_num)

theorem f32_12 : f32 12 = 12 :=
  f32_pos_eq 12 12 3 12582912 (by norm_num) (by norm_num) (by norm_num) (by norm_num)
    (by norm_num) (by norm_num)

theorem abs_sub_le_of_between (a b c : ℤ) (h : (c ≤ b ∧ b ≤ a) ∨ (a ≤ b ∧ b ≤ c)) :
    |b - c| ≤ |a - c| := by
  rcases h with ⟨h1, h2⟩ | ⟨h1, h2⟩
  · rw [abs_of_nonneg (by omega), abs_of_nonneg (by omega)]; omega
  · rw [abs_of_nonpos (by omega), abs_of_nonpos (by omega)]; omega

theorem f32_tenth_pos : 0 < f32 (1 / 10) := by rw [f32_tenth]; norm_num

/-- The column stored by `project3D` moves towards the centre column 40 when the
depth grows, and its conversion stays defined. -/
theorem screenX_towards_center (x z1 z2 : ℚ) (a1 : ℤ) (hg : fadd z1 5 > f32 (1 / 10))
    (h12 : z1 ≤ z2) (h1 : toInt (screenXf x z1) = some a1) :
    ∃ a2, toInt (screenXf x z2) = some a2 ∧ |a2 - 40| ≤ |a1 - 40| := by
  have hzo : fadd z1 5 ≤ fadd z2 5 := f32_mono (by linarith)
  have h0 : 0 < fadd z1 5 := lt_trans f32_tenth_pos hg
  have hw : ((WIDTH / 2 : Nat) : ℚ) = 40 := by norm_num [WIDTH]
  unfold screenXf fadd at h1 ⊢
  rw [hw] at h1 ⊢
  rcases le_or_lt 0 x with hx | hx
  · obtain ⟨hm0, hm⟩ := scaled_quotient_antitone x 20 _ _ (by norm_num) h0 hzo hx
    unfold fadd at hm0 hm
    have hs : f32 (40 + fmul (fdiv x (f32 (z2 + 5))) 20) ≤
        f32 (40 + fmul (fdiv x (f32 (z1 + 5))) 20) := f32_mono (by linarith)
    have hs40 : ((40 : ℤ) : ℚ) ≤ f32 (40 + fmul (fdiv x (f32 (z2 + 5))) 20) := by
      have := f32_mono (show (40 : ℚ) ≤ 40 + fmul (fdiv x (f32 (z2 + 5))) 20 by linarith)
      rw [f32_40] at this
      exact_mod_cast this
    obtain ⟨b, hb, hb1, hb2⟩ := toInt_ge_of_ge _ _ a1 40 h1 hs hs40 (by norm_num)
    exact ⟨b, hb, abs_sub_le_of_between a1 b 40 (Or.inl ⟨hb1, hb2⟩)⟩
  · obtain ⟨hm, hm0⟩ := scaled_quotient_monotone_neg x 20 _ _ (by norm_num) h0 hzo hx.le
    unfold fadd at hm0 hm
    have hs : f32 (40 + fmul (fdiv x (f32 (z1 + 5))) 20) ≤
        f32 (40 + fmul (fdiv x (f32 (z2 + 5))) 20) := f32_mono (by linarith)
    have hs40 : f32 (40 + fmul (fdiv x (f32 (z2 + 5))) 20) ≤ ((40 : ℤ) : ℚ) := by
      have := f32_mono (show 40 + fmul (fdiv x (f32 (z2 + 5))) 20 ≤ (40 : ℚ) by linarith)
      rw [f32_40] at this
      exact_mod_cast this
    obtain ⟨b, hb, hb1, hb2⟩ := toInt_le_of_le _ _ a1 40 h1 hs hs40 (by norm_num)
    exact ⟨b, hb, abs_sub_le_of_between a1 b 40 (Or.inr ⟨hb1, hb2⟩)⟩

/-- The row stored by `project3D` moves towards the centre row 12 when the depth
grows, and its conversion stays defined. -/
theorem screenY_towards_center (y z1 z2 : ℚ) (b1 : ℤ) (hg : fadd z1 5 > f32 (1 / 10))
    (h12 : z1 ≤ z2) (h1 : toInt (screenYf y z1) = some b1) :
    ∃ b2, toInt (screenYf y z2) = some b2 ∧ |b2 - 12| ≤ |b1 - 12| := by
  have hzo : fadd z1 5 ≤ fadd z2 5 := f32_mono (by linarith)
  have h0 : 0 < fadd z1 5 := lt_trans f32_tenth_pos hg
  have hh : ((HEIGHT / 2 : Nat) : ℚ) = 12 := by norm_num [HEIGHT]
  unfold screenYf fsub fadd at h1 ⊢
  rw [hh] at h1 ⊢
  rcases le_or_lt 0 y with hy | hy
  · obtain ⟨hm0, hm⟩ := scaled_quotient_antitone y 10 _ _ (by norm_num) h0 hzo hy
    unfold fadd at hm0 hm
    have hs : f32 (12 - fmul (fdiv y (f32 (z1 + 5))) 10) ≤
        f32 (12 - fmul (fdiv y (f32 (z2 + 5))) 10) := f32_mono (by linarith)
    have hs12 : f32 (12 - fmul (fdiv y (f32 (z2 + 5))) 10) ≤ ((12 : ℤ) : ℚ) := by
      have := f32_mono (show 12 - fmul (fdiv y (f32 (z2 + 5))) 10 ≤ (12 : ℚ) by linarith)
      rw [f32_12] at this
      exact_mod_cast this
    obtain ⟨b, hb, hb1, hb2⟩ := toInt_le_of_le _ _ b1 12 h1 hs hs12 (by norm_num)
    exact ⟨b, hb, abs_sub_le_of_between b1 b 12 (Or.inr ⟨hb1, hb2⟩)⟩
  · obtain ⟨hm, hm0⟩ := scaled_quotient_monotone_neg y 10 _ _ (by norm_num) h0 hzo hy.le
    unfold fadd at hm0 hm
    have hs : f32 (12 - fmul (fdiv y (f32 (z2 + 5))) 10) ≤
        f32 (12 - fmul (fdiv y (f32 (z1 + 5))) 10) := f32_mono (by linarith)
    have hs12 : ((12 : ℤ) : ℚ) ≤ f32 (12 - fmul (fdiv y (f32 (z2 + 5))) 10) := by
      have := f32_mono (show (12 : ℚ) ≤ 12 - fmul (fdiv y (f32 (z2 + 5))) 10 by linarith)
      rw [f32_12] at this
      exact_mod_cast this
    obtain ⟨b, hb, hb1, hb2⟩ := toInt_ge_of_ge _ _ b1 12 h1 hs hs12 (by norm_num)
    exact ⟨b, hb, abs_sub_le_of_between b1 b 12 (Or.inl ⟨hb1, hb2⟩)⟩

theorem f32_ten : f32 10 = 10 :=
  f32_pos_eq 10 10 3 10485760 (by norm_num) (by norm_num) (by norm_num) (by norm_num)
    (by norm_num) (by norm_num)

theorem f32_fifth : f32 (1 / 5) = 13421773 / 67108864 :=
  f32_pos_eq _ _ (-3) 13421773 (by norm_num) (by norm_num) (by norm_num) (by norm_num)
    (by norm_num) (by norm_num)

theorem frameOffset_zero : frameOffset 0 = 0 := by
  unfold frameOffset fmul
  simp [f32_zero]

theorem frameOffset_ten : frameOffset 10 = -1 := by
  unfold frameOffset fmul
  rw [f32_tenth]
  have h1 : f32 (-((10 : ℤ) : ℚ)) = -10 := f32_of_neg _ 10 _ (by norm_num) f32_ten
  rw [h1]
  exact f32_of_neg _ (134217730 / 134217728) _ (by norm_num)
    (f32_pos_eq _ _ 0 8388608 (by norm_num) (by norm_num) (by norm_num) (by norm_num)
      (by norm_num) (by norm_num))

/-- Vertex 6 of the cube, moved by the depth offset of frame 10. -/
theorem project3D_v6_frame10 : project3D 1 1 (fadd 1 (frameOffset 10)) = some (44, 10) := by
  have hz : fadd 1 (frameOffset 10) = 0 := by
    rw [frameOffset_ten]
    exact f32_of_eq _ 0 _ (by norm_num) f32_zero
  rw [hz]
  exact project3D_eq 1 1 0 5 (13421773 / 67108864) (13421773 / 67108864) 4 2 44 10 44 10
    (f32_of_eq _ 5 _ (by norm_num) f32_five) (by rw [f32_tenth]; norm_num)
    f32_fifth f32_fifth
    (f32_pos_eq _ _ 2 8388608 (by norm_num) (by norm_num) (by norm_num) (by norm_num)
      (by norm_num) (by norm_num))
    (f32_pos_eq _ _ 1 8388608 (by norm_num) (by norm_num) (by norm_num) (by norm_num)
      (by norm_num) (by norm_num))
    (f32_pos_eq _ _ 5 11534336 (by norm_num) (by norm_num) (by norm_num) (by norm_num)
      (by norm_num) (by norm_num))
    (f32_of_eq _ 10 _ (by norm_num) f32_ten)
    (toInt_of_nonneg _ _ (by norm_num) (by norm_num) (by norm_num) (by norm_num))
    (toInt_of_nonneg _ _ (by norm_num) (by norm_num) (by norm_num) (by norm_num))

theorem project3D_v6_frame0 : project3D 1 1 (fadd 1 (frameOffset 0)) = some (43, 10) := by
  rw [frameOffset_zero, fadd_one_zero]
  exact project3D_v6

theorem f32_neg_33_4 : f32 (-33 / 4) = -33 / 4 := by
  have h : f32 (33 / 4) = 33 / 4 :=
    f32_pos_eq _ _ 3 8650752 (by norm_num) (by norm_num) (by norm_num) (by norm_num)
      (by norm_num) (by norm_num)
  have := f32_of_neg (-33 / 4) (33 / 4) _ (by norm_num) h
  rw [this]; norm_num

theorem f32_21_4 : f32 (21 / 4) = 21 / 4 :=
  f32_pos_eq _ _ 2 11010048 (by norm_num) (by norm_num) (by norm_num) (by norm_num)
    (by norm_num) (by norm_num)

theorem f32_neg_one : f32 (-1) = -1 := f32_of_neg _ 1 _ (by norm_num) f32_one

/-- The store guarded by `drawPixel` is always inside the array. -/
theorem drawPixelChecked_eq (screen : Screen) (x y : Int) (c : Char) :
    drawPixelChecked screen x y c = some (drawPixel screen x y c) := by
  unfold drawPixelChecked drawPixel storeAt
  by_cases h : x ≥ 0 ∧ x < WIDTH ∧ y ≥ 0 ∧ y < HEIGHT
  · have h2 : 0 ≤ y ∧ y < HEIGHT ∧ 0 ≤ x ∧ x < WIDTH := ⟨h.2.2.1, h.2.2.2, h.1, h.2.1⟩
    simp only [h, h2, if_true, dif_pos, and_self]
  · simp only [h, if_false, dif_neg, not_false_eq_true]

theorem drawLineLoopChecked_eq (x1 y1 dx dy sx sy : Int) (c : Char) :
    ∀ (fuel : Nat) (screen : Screen) (s : LineState),
      drawLineLoopChecked x1 y1 dx dy sx sy c fuel screen s =
        drawLineLoop x1 y1 dx dy sx sy c fuel screen s := by
  intro fuel
  induction fuel with
  | zero => intro screen s; rfl
  | succ fuel ih =>
    intro screen s
    rw [drawLineLoopChecked, drawLineLoop, drawPixelChecked_eq]
    simp only [Option.bind_eq_bind, Option.some_bind, ih]

theorem drawLineChecked_eq (fuel : Nat) (screen : Screen) (x0 y0 x1 y1 : Int) (c : Char) :
    drawLineChecked fuel screen x0 y0 x1 y1 c = drawLine fuel screen x0 y0 x1 y1 c := by
  unfold drawLineChecked drawLine
  exact drawLineLoopChecked_eq _ _ _ _ _ _ _ _ _ _

/-- With raw stores `drawCube` computes the same result: none of its stores is outside
the buffer. -/
theorem drawCubeChecked_eq (fuel : Nat) (screen : Screen) (cubeArr : List (ℚ × ℚ × ℚ))
    (translateZ : ℚ) :
    drawCubeChecked fuel screen cubeArr translateZ = drawCube fuel screen cubeArr translateZ := by
  unfold drawCubeChecked drawCube drawEdges drawMarkers
  simp only [drawLineChecked_eq, drawPixelChecked_eq]
  rfl


/-- What a successful `mapM` in `Option` says about its result. -/
theorem mapM_option_some {α β : Type} (f : α → Option β) :
    ∀ (l : List α) (r : List β), l.mapM f = some r →
      r.length = l.length ∧ ∀ b ∈ r, ∃ a ∈ l, f a = some b := by
  intro l
  induction l with
  | nil =>
    intro r h
    simp only [List.mapM_nil, Option.pure_def, Option.some.injEq] at h
    subst h
    simp
  | cons a l ih =>
    intro r h
    rw [List.mapM_cons] at h
    cases hfa : f a with
    | none =>
      rw [hfa] at h
      exact absurd h (by simp)
    | some b =>
      cases hl : l.mapM f with
      | none =>
        rw [hfa, hl] at h
        exact absurd h (by simp)
      | some r2 =>
        rw [hfa, hl] at h
        simp only [Option.bind_eq_bind, Option.some_bind, Option.pure_def,
          Option.some.injEq] at h
        subst h
        obtain ⟨hlen, hmem⟩ := ih r2 hl
        refine ⟨by simp [hlen], ?_⟩
        intro b2 hb2
        rcases List.mem_cons.mp hb2 with rfl | hb2
        · exact ⟨a, List.mem_cons_self _ _, hfa⟩
        · obtain ⟨a2, ha2, hf2⟩ := hmem b2 hb2
          exact ⟨a2, List.mem_cons_of_mem _ ha2, hf2⟩

/-- A `mapM` in `Option` succeeds when the function succeeds on every element. -/
theorem mapM_option_exists {α β : Type} (f : α → Option β) (P : β → Prop) :
    ∀ (l : List α), (∀ a ∈ l, ∃ b, f a = some b ∧ P b) →
      ∃ r, l.mapM f = some r ∧ r.length = l.length ∧ ∀ b ∈ r, P b := by
  intro l
  induction l with
  | nil => intro _; exact ⟨[], rfl, rfl, by simp⟩
  | cons a l ih =>
    intro h
    obtain ⟨b, hb, hPb⟩ := h a (List.mem_cons_self _ _)
    obtain ⟨r, hr, hlen, hP⟩ := ih (fun a2 ha2 => h a2 (List.mem_cons_of_mem _ ha2))
    refine ⟨b :: r, ?_, by simp [hlen], ?_⟩
    · rw [List.mapM_cons, hb, hr]
      rfl
    · intro b2 hb2
      rcases List.mem_cons.mp hb2 with rfl | hb2
      · exact hPb
      · exact hP b2 hb2

theorem truncQ_range (q : ℚ) (h : -(2 ^ 31 : ℚ) - 1 < q ∧ q < 2 ^ 31) :
    -(2 ^ 31) ≤ truncQ q ∧ truncQ q < 2 ^ 31 := by
  unfold truncQ
  split_ifs with h0
  · have h1 : (0 : ℤ) ≤ ⌊q⌋ := Int.floor_nonneg.mpr h0
    have h2 : ⌊q⌋ < 2 ^ 31 := by
      rw [Int.floor_lt]; push_cast; linarith [h.2]
    constructor <;> omega
  · have h1 : ⌈q⌉ ≤ 0 := Int.ceil_le.mpr (by push_cast; linarith)
    have h2 : -(2 ^ 31) - 1 < ⌈q⌉ := by
      rw [Int.lt_ceil]; push_cast; linarith [h.1]
    constructor <;> omega

/-- Both coordinates stored by `project3D` are 32-bit `int` values. -/
theorem project3D_range (x y z : ℚ) (a b : ℤ) (h : project3D x y z = some (a, b)) :
    (-(2 ^ 31) ≤ a ∧ a < 2 ^ 31) ∧ (-(2 ^ 31) ≤ b ∧ b < 2 ^ 31) := by
  by_cases hg : fadd z 5 > f32 (1 / 10)
  · rw [project3D_open_eq_some x y z hg, toInt_eq_some_iff, toInt_eq_some_iff] at h
    obtain ⟨⟨hr1, rfl⟩, hr2, rfl⟩ := h
    exact ⟨truncQ_range _ hr1, truncQ_range _ hr2⟩
  · unfold project3D at h
    simp only [hg, if_false, Option.some.injEq, Prod.mk.injEq] at h
    obtain ⟨rfl, rfl⟩ := h
    norm_num

theorem lineLen_lt_of_range (x0 y0 x1 y1 B : Int)
    (h0 : (-B ≤ x0 ∧ x0 < B) ∧ (-B ≤ y0 ∧ y0 < B))
    (h1 : (-B ≤ x1 ∧ x1 < B) ∧ (-B ≤ y1 ∧ y1 < B)) :
    ((lineLen x0 y0 x1 y1 : Nat) : Int) < 2 * B := by
  rw [lineLen_cast]
  unfold cAbs
  split_ifs <;> omega

/-- When the eight projections are defined, `drawCube` returns as soon as the fuel
exceeds the length of every segment between two projected points: every index it
reads from `projected` is in range. -/
theorem drawCube_defined (fuel : Nat) (screen : Screen) (cubeArr : List (ℚ × ℚ × ℚ))
    (translateZ : ℚ) (projected : List (Int × Int))
    (hproj : projectVertices cubeArr translateZ 8 = some projected)
    (hfuel : ∀ p ∈ projected, ∀ q ∈ projected, lineLen p.1 p.2 q.1 q.2 < fuel) :
    ∃ screen2, drawCube fuel screen cubeArr translateZ = some screen2 := by
  have hlen : projected.length = 8 := by
    have := (mapM_option_some _ _ _ hproj).1
    simpa using this
  have hidx : ∀ e ∈ edges, e.1 < 8 ∧ e.2 < 8 := by decide
  have hedges : ∀ e ∈ edges, ∃ p0 p1, projected[e.1]? = some p0 ∧
      projected[e.2]? = some p1 ∧ lineLen p0.1 p0.2 p1.1 p1.2 < fuel := by
    intro e he
    have h1 : e.1 < projected.length := by rw [hlen]; exact (hidx e he).1
    have h2 : e.2 < projected.length := by rw [hlen]; exact (hidx e he).2
    exact ⟨projected[e.1], projected[e.2], List.getElem?_eq_getElem h1,
      List.getElem?_eq_getElem h2,
      hfuel _ (List.getElem_mem h1) _ (List.getElem_mem h2)⟩
  obtain ⟨screen1, hs1, _⟩ := drawEdges_spec fuel projected edges screen hedges
  have hmark := drawMarkers_eq screen1 projected
  rw [hlen] at hmark
  refine ⟨plotAll '*' projected screen1, ?_⟩
  unfold drawCube
  simp only [hproj, hs1, Option.bind_eq_bind, Option.some_bind]
  exact hmark

theorem f32_between (q lo hi : ℚ) (hlo : f32 lo = lo) (hhi : f32 hi = hi) (h1 : lo ≤ q)
    (h2 : q ≤ hi) : lo ≤ f32 q ∧ f32 q ≤ hi := by
  constructor
  · have := f32_mono h1
    rwa [hlo] at this
  · have := f32_mono h2
    rwa [hhi] at this

theorem f32_between_sym (q hi : ℚ) (hhi : f32 hi = hi) (h1 : -hi ≤ q) (h2 : q ≤ hi) :
    -hi ≤ f32 q ∧ f32 q ≤ hi :=
  f32_between q (-hi) hi (by rw [f32_neg, hhi]) hhi h1 h2

theorem toInt_between (q : ℚ) (lo hi : ℤ) (h1 : (lo : ℚ) ≤ q) (h2 : q ≤ hi)
    (hlo : -(2 ^ 31) ≤ lo) (hhi : hi < 2 ^ 31) : ∃ a, toInt q = some a ∧ lo ≤ a ∧ a ≤ hi := by
  have hlo2 : (-(2 ^ 31) : ℚ) ≤ lo := by exact_mod_cast hlo
  have hhi2 : (hi : ℚ) < 2 ^ 31 := by exact_mod_cast hhi
  refine ⟨truncQ q, ?_, ?_, ?_⟩
  · rw [toInt_eq_some_iff]
    exact ⟨⟨by linarith, by linarith⟩, rfl⟩
  · have := truncQ_mono h1
    rwa [truncQ_intCast] at this
  · have := truncQ_mono h2
    rwa [truncQ_intCast] at this

theorem f32_200 : f32 200 = 200 :=
  f32_pos_eq 200 200 7 13107200 (by norm_num) (by norm_num) (by norm_num) (by norm_num)
    (by norm_num) (by norm_num)

theorem f32_100 : f32 100 = 100 :=
  f32_pos_eq 100 100 6 13107200 (by norm_num) (by norm_num) (by norm_num) (by norm_num)
    (by norm_num) (by norm_num)

theorem f32_240 : f32 240 = 240 :=
  f32_pos_eq 240 240 7 15728640 (by norm_num) (by norm_num) (by norm_num) (by norm_num)
    (by norm_num) (by norm_num)

theorem f32_160 : f32 160 = 160 :=
  f32_pos_eq 160 160 7 10485760 (by norm_num) (by norm_num) (by norm_num) (by norm_num)
    (by norm_num) (by norm_num)

theorem f32_112 : f32 112 = 112 :=
  f32_pos_eq 112 112 6 14680064 (by norm_num) (by norm_num) (by norm_num) (by norm_num)
    (by norm_num) (by norm_num)

theorem f32_88 : f32 88 = 88 :=
  f32_pos_eq 88 88 6 11534336 (by norm_num) (by norm_num) (by norm_num) (by norm_num)
    (by norm_num) (by norm_num)

/-- The perspective quotient of a coordinate in `[-1, 1]` in front of the near plane
is at most 10 in absolute value. -/
theorem fdiv_unit_bound (t zo : ℚ) (ht : |t| ≤ 1) (hzo : f32 (1 / 10) < zo) :
    -10 ≤ fdiv t zo ∧ fdiv t zo ≤ 10 := by
  have hz : (1 / 10 : ℚ) < zo := lt_trans (by rw [f32_tenth]; norm_num) hzo
  have hpos : 0 < zo := by linarith
  rw [abs_le] at ht
  unfold fdiv
  apply f32_between_sym _ 10 f32_ten
  · rw [le_div_iff₀ hpos]; linarith
  · rw [div_le_iff₀ hpos]; linarith

/-- For a point with `x` and `y` in `[-1, 1]`, at any depth, `project3D` is defined
and stores a column in `[-160, 240]` and a row in `[-88, 112]`. -/
theorem project3D_unit_bound (x y z : ℚ) (hx : |x| ≤ 1) (hy : |y| ≤ 1) :
    ∃ a b, project3D x y z = some (a, b) ∧ (-160 ≤ a ∧ a ≤ 240) ∧ (-88 ≤ b ∧ b ≤ 112) := by
  by_cases hg : fadd z 5 > f32 (1 / 10)
  · obtain ⟨hp1, hp2⟩ := fdiv_unit_bound x (fadd z 5) hx hg
    obtain ⟨hq1, hq2⟩ := fdiv_unit_bound y (fadd z 5) hy hg
    have hmx : -200 ≤ fmul (fdiv x (fadd z 5)) 20 ∧ fmul (fdiv x (fadd z 5)) 20 ≤ 200 :=
      f32_between_sym _ 200 f32_200 (by linarith) (by linarith)
    have hmy : -100 ≤ fmul (fdiv y (fadd z 5)) 10 ∧ fmul (fdiv y (fadd z 5)) 10 ≤ 100 :=
      f32_between_sym _ 100 f32_100 (by linarith) (by linarith)
    have hw : ((WIDTH / 2 : Nat) : ℚ) = 40 := by norm_num [WIDTH]
    have hh : ((HEIGHT / 2 : Nat) : ℚ) = 12 := by norm_num [HEIGHT]
    have hsx : -160 ≤ screenXf x z ∧ screenXf x z ≤ 240 := by
      unfold screenXf
      rw [hw]
      exact f32_between _ (-160) 240 (by rw [f32_neg, f32_160]) f32_240
        (by linarith [hmx.1]) (by linarith [hmx.2])
    have hsy : -88 ≤ screenYf y z ∧ screenYf y z ≤ 112 := by
      unfold screenYf
      rw [hh]
      exact f32_between _ (-88) 112 (by rw [f32_neg, f32_88]) f32_112
        (by linarith [hmy.2]) (by linarith [hmy.1])
    obtain ⟨a, ha, ha1, ha2⟩ := toInt_between (screenXf x z) (-160) 240
      (by push_cast; exact hsx.1) (by push_cast; exact hsx.2) (by norm_num) (by norm_num)
    obtain ⟨b, hb, hb1, hb2⟩ := toInt_between (screenYf y z) (-88) 112
      (by push_cast; exact hsy.1) (by push_cast; exact hsy.2) (by norm_num) (by norm_num)
    exact ⟨a, b, (project3D_open_eq_some x y z hg a b).mpr ⟨ha, hb⟩, ⟨ha1, ha2⟩, hb1, hb2⟩
  · refine ⟨-1, -1, ?_, by norm_num, by norm_num⟩
    unfold project3D
    simp only [hg, if_false]

/-- At every depth offset the eight vertices of `cube` have defined projections, with
columns in `[-160, 240]` and rows in `[-88, 112]`. -/
theorem projectVertices_cube_bound (translateZ : ℚ) :
    ∃ projected, projectVertices cube translateZ 8 = some projected ∧
      ∀ p ∈ projected, (-160 ≤ p.1 ∧ p.1 ≤ 240) ∧ (-88 ≤ p.2 ∧ p.2 ≤ 112) := by
  have hv : ∀ v ∈ cube, |v.1| ≤ 1 ∧ |v.2.1| ≤ 1 := by
    intro v hv
    simp only [cube, List.mem_cons, List.mem_singleton, List.not_mem_nil, or_false] at hv
    rcases hv with rfl | rfl | rfl | rfl | rfl | rfl | rfl | rfl <;> norm_num
  have hlen : cube.length = 8 := rfl
  obtain ⟨r, hr, _, hP⟩ := mapM_option_exists
    (fun i => do
      let v ← cube[i]?
      project3D v.1 v.2.1 (fadd v.2.2 translateZ))
    (fun p : Int × Int => (-160 ≤ p.1 ∧ p.1 ≤ 240) ∧ (-88 ≤ p.2 ∧ p.2 ≤ 112))
    (List.range 8) (by
      intro i hi
      rw [List.mem_range] at hi
      have hi2 : i < cube.length := by rw [hlen]; exact hi
      obtain ⟨hx, hy⟩ := hv _ (List.getElem_mem hi2)
      obtain ⟨a, b, hab, ha, hb⟩ :=
        project3D_unit_bound cube[i].1 cube[i].2.1 (fadd cube[i].2.2 translateZ) hx hy
      refine ⟨(a, b), ?_, ha, hb⟩
      show (cube[i]?.bind fun v => project3D v.1 v.2.1 (fadd v.2.2 translateZ)) = some (a, b)
      rw [List.getElem?_eq_getElem hi2]
      exact hab)
  exact ⟨r, hr, hP⟩

/-- One frame: `drawCube` on the table of `main` returns at every depth offset once
the line fuel exceeds 400. -/
theorem drawCube_cube_defined (fuel : Nat) (hfuel : 400 < fuel) (screen : Screen)
    (translateZ : ℚ) : ∃ screen2, drawCube fuel screen cube translateZ = some screen2 := by
  obtain ⟨projected, hproj, hbound⟩ := projectVertices_cube_bound translateZ
  apply drawCube_defined fuel screen cube translateZ projected hproj
  intro p hp q hq
  have h1 := hbound p hp
  have h2 := hbound q hq
  have hcast := lineLen_cast p.1 p.2 q.1 q.2
  have : ((lineLen p.1 p.2 q.1 q.2 : Nat) : Int) ≤ 400 := by
    rw [hcast]
    unfold cAbs
    split_ifs <;> omega
  omega

/-- The frame loop entered at `frame = 100 - n` runs exactly `n` iterations. -/
theorem mainLoop_runs (lineFuel : Nat) (hl : 400 < lineFuel) :
    ∀ (n : Nat) (frame : Int) (screen : Screen) (fuel : Nat),
      frame + n = 100 → n < fuel →
      ∃ frames, mainLoop lineFuel fuel frame screen = some frames ∧
        frames.map Prod.fst = (List.range n).map (fun k : Nat => frame + (k : Int)) := by
  intro n
  induction n with
  | zero =>
    intro frame screen fuel hframe hfuel
    obtain ⟨f, rfl⟩ : ∃ f, fuel = f + 1 := ⟨fuel - 1, by omega⟩
    have hge : ¬ frame < 100 := by push_cast at hframe; omega
    exact ⟨[], by rw [mainLoop]; simp only [hge, if_false], rfl⟩
  | succ n ih =>
    intro frame screen fuel hframe hfuel
    obtain ⟨f, rfl⟩ : ∃ f, fuel = f + 1 := ⟨fuel - 1, by omega⟩
    have hlt : frame < 100 := by push_cast at hframe; omega
    obtain ⟨screen2, hs2⟩ :=
      drawCube_cube_defined lineFuel hl (clearScreen screen) (frameOffset frame)
    obtain ⟨rest, hrest, hmap⟩ := ih (frame + 1) screen2 f
      (by push_cast at hframe ⊢; omega) (by omega)
    refine ⟨(frame, screen2) :: rest, ?_, ?_⟩
    · rw [mainLoop]
      simp only [hlt, if_true, hs2, hrest, Option.bind_eq_bind, Option.some_bind,
        Option.pure_def]
    · rw [List.map_cons, hmap, List.range_succ_eq_map, List.map_cons, List.map_map]
      simp only [Nat.cast_zero, add_zero, List.cons.injEq, true_and]
      apply List.map_congr_left
      intro k _
      simp only [Function.comp_apply, Nat.succ_eq_add_one]
      push_cast
      ring

/-- Every projected vertex is a pair of 32-bit `int` values. -/
theorem projectVertices_range (cubeArr : List (ℚ × ℚ × ℚ)) (translateZ : ℚ) (n : Nat)
    (projected : List (Int × Int)) (hproj : projectVertices cubeArr translateZ n = some projected) :
    projected.length = n ∧
      ∀ p ∈ projected, (-(2 ^ 31) ≤ p.1 ∧ p.1 < 2 ^ 31) ∧ (-(2 ^ 31) ≤ p.2 ∧ p.2 < 2 ^ 31) := by
  obtain ⟨hlen, hmem⟩ := mapM_option_some _ _ _ hproj
  refine ⟨by simpa using hlen, ?_⟩
  intro p hp
  obtain ⟨i, _, hi⟩ := hmem p hp
  cases hv : cubeArr[i]? with
  | none =>
    rw [hv] at hi
    exact absurd hi (by simp)
  | some v =>
    rw [hv] at hi
    exact project3D_range v.1 v.2.1 (fadd v.2.2 translateZ) p.1 p.2 hi

/-! ## Claims about the frame buffer and the rasteriser -/

/-- C1: for every buffer, integers `x`, `y` and character `c`: when `0 ≤ x < 80` and
`0 ≤ y < 24`, after `drawPixel` the cell at row `y`, column `x` holds `c` and every
other cell is unchanged; otherwise the buffer after `drawPixel` is the buffer before. -/
theorem drawPixel_spec (screen : Screen) (x y : Int) (c : Char) :
    ((h : 0 ≤ x ∧ x < 80 ∧ 0 ≤ y ∧ y < 24) →
      drawPixel screen x y c ⟨y.toNat, by show y.toNat < 24; omega⟩
        ⟨x.toNat, by show x.toNat < 80; omega⟩ = c ∧
      ∀ (i : Fin HEIGHT) (j : Fin WIDTH), ¬ (((i : Nat) : Int) = y ∧ ((j : Nat) : Int) = x) →
        drawPixel screen x y c i j = screen i j) ∧
    (¬ (0 ≤ x ∧ x < 80 ∧ 0 ≤ y ∧ y < 24) → drawPixel screen x y c = screen) := by
  refine ⟨fun h => ⟨?_, ?_⟩, fun h => ?_⟩
  · rw [drawPixel_apply]
    have h1 : ((x.toNat : Nat) : Int) = x ∧ ((y.toNat : Nat) : Int) = y := by omega
    simp [h1]
  · intro i j hij
    rw [drawPixel_apply]
    have h1 : ¬ (((j : Nat) : Int) = x ∧ ((i : Nat) : Int) = y) := fun h2 => hij ⟨h2.2, h2.1⟩
    simp [h1]
  · apply drawPixel_out
    simpa [InBounds] using h

/-- Witness for C1: an in-range store at column 3, row 2 and an out-of-range call at
column 80. -/
theorem drawPixel_spec_witness :
    drawPixel (fun _ _ => ' ') 3 2 '#' ⟨2, by decide⟩ ⟨3, by decide⟩ = '#' ∧
    drawPixel (fun _ _ => ' ') 80 2 '#' = (fun _ _ => ' ') :=
  ⟨((drawPixel_spec (fun _ _ => ' ') 3 2 '#').1 (by decide)).1,
   (drawPixel_spec (fun _ _ => ' ') 80 2 '#').2 (by decide)⟩

/-- C2: for all integer end points the `drawLine` loop terminates: there is one result
that `drawLine` returns for every fuel above `max |x1 - x0| |y1 - y0|`; and the
sequence of points passed to `drawPixel` starts with `(x0, y0)` and ends with
`(x1, y1)`. -/
theorem drawLine_terminates_endpoints (screen : Screen) (x0 y0 x1 y1 : Int) (c : Char) :
    ∃ screen2 pts,
      (∀ fuel : Nat, max |x1 - x0| |y1 - y0| < (fuel : Int) →
        drawLine fuel screen x0 y0 x1 y1 c = some (screen2, pts)) ∧
      pts.head? = some (x0, y0) ∧ pts.getLast? = some (x1, y1) := by
  refine ⟨plotAll c (linePoints x0 y0 x1 y1) screen, linePoints x0 y0 x1 y1,
    fun fuel hfuel => ?_, linePoints_head x0 y0 x1 y1, linePoints_getLast x0 y0 x1 y1⟩
  rw [← lineLen_cast_abs] at hfuel
  exact drawLine_eq fuel screen x0 y0 x1 y1 c (by exact_mod_cast hfuel)

/-- Witness for C2: the segment from (3, 7) to (-2, 5) with fuel 6. -/
theorem drawLine_terminates_endpoints_witness :
    ∃ screen2 pts, drawLine 6 (fun _ _ => ' ') 3 7 (-2) 5 '#' = some (screen2, pts) ∧
      pts.head? = some (3, 7) ∧ pts.getLast? = some (-2, 5) :=
  let ⟨screen2, pts, h, hhead, hlast⟩ :=
    drawLine_terminates_endpoints (fun _ _ => ' ') 3 7 (-2) 5 '#'
  ⟨screen2, pts, h 6 (by decide), hhead, hlast⟩

/-- C3: for all integer end points, the sequence of points plotted by `drawLine` is
connected under 8-adjacency: two consecutive plotted points are distinct and differ
by at most 1 in `x` and at most 1 in `y`.  Moreover no point occurs twice in the
sequence. -/
theorem drawLine_connected (fuel : Nat) (screen : Screen) (x0 y0 x1 y1 : Int)
    (c : Char) (hfuel : max |x1 - x0| |y1 - y0| < (fuel : Int)) :
    ∃ screen2 pts, drawLine fuel screen x0 y0 x1 y1 c = some (screen2, pts) ∧
      List.Chain' (fun p q : Int × Int => p ≠ q ∧ |q.1 - p.1| ≤ 1 ∧ |q.2 - p.2| ≤ 1) pts ∧
      pts.Nodup := by
  rw [← lineLen_cast_abs] at hfuel
  refine ⟨_, _, drawLine_eq fuel screen x0 y0 x1 y1 c (by exact_mod_cast hfuel), ?_,
    linePoints_nodup x0 y0 x1 y1⟩
  refine List.Chain'.imp ?_ (linePoints_chain x0 y0 x1 y1)
  intro p q h
  simpa [Adjacent8, cAbs_eq_abs] using h

/-- Witness for C3: the segment from (0, 0) to (2, 9) with fuel 10. -/
theorem drawLine_connected_witness :
    ∃ screen2 pts, drawLine 10 (fun _ _ => ' ') 0 0 2 9 '#' = some (screen2, pts) ∧
      List.Chain' (fun p q : Int × Int => p ≠ q ∧ |q.1 - p.1| ≤ 1 ∧ |q.2 - p.2| ≤ 1) pts ∧
      pts.Nodup :=
  drawLine_connected 10 (fun _ _ => ' ') 0 0 2 9 '#' (by decide)

/-- C4: for every buffer, end points and character `c`, the buffer after `drawLine`
is the buffer before with exactly the cells of the plotted path that lie in the grid
set to `c`: a cell of the grid holds `c` when it is on the path and its old content
otherwise; path points outside the grid write nothing and raise no error. -/
theorem drawLine_frame (fuel : Nat) (screen : Screen) (x0 y0 x1 y1 : Int)
    (c : Char) (hfuel : max |x1 - x0| |y1 - y0| < (fuel : Int)) :
    ∃ screen2 pts, drawLine fuel screen x0 y0 x1 y1 c = some (screen2, pts) ∧
      ∀ (i : Fin HEIGHT) (j : Fin WIDTH),
        screen2 i j = if (((j : Nat) : Int), ((i : Nat) : Int)) ∈ pts then c else screen i j := by
  rw [← lineLen_cast_abs] at hfuel
  exact ⟨_, _, drawLine_eq fuel screen x0 y0 x1 y1 c (by exact_mod_cast hfuel),
    plotAll_apply c _ screen⟩

/-- Witness for C4: a segment that leaves the grid on both sides. -/
theorem drawLine_frame_witness :
    ∃ screen2 pts, drawLine 91 (fun _ _ => ' ') (-5) 3 85 30 '#' = some (screen2, pts) ∧
      ∀ (i : Fin HEIGHT) (j : Fin WIDTH),
        screen2 i j =
          if (((j : Nat) : Int), ((i : Nat) : Int)) ∈ pts then '#' else ' ' :=
  drawLine_frame 91 (fun _ _ => ' ') (-5) 3 85 30 '#' (by decide)

/-- C9: `drawLine` from (0,0) to (5,2) plots exactly the midpoint-algorithm sequence
(0,0),(1,0),(2,1),(3,1),(4,2),(5,2), in that order, and no other point. -/
theorem drawLine_shallow_example (fuel : Nat) (screen : Screen) (c : Char) (hfuel : 5 < fuel) :
    (drawLine fuel screen 0 0 5 2 c).map Prod.snd =
      some [(0, 0), (1, 0), (2, 1), (3, 1), (4, 2), (5, 2)] := by
  rw [drawLine_eq fuel screen 0 0 5 2 c (by simpa [lineLen, cAbs] using hfuel)]
  simp only [Option.map_some']
  decide

/-- Witness for C9: fuel 6 on a blank buffer. -/
theorem drawLine_shallow_example_witness :
    (drawLine 6 (fun _ _ => ' ') 0 0 5 2 '#').map Prod.snd =
      some [(0, 0), (1, 0), (2, 1), (3, 1), (4, 2), (5, 2)] :=
  drawLine_shallow_example 6 (fun _ _ => ' ') '#' (by decide)

/-- C10: for every horizontal (`y0 = y1`), vertical (`x0 = x1`) or 45-degree
(`|x1 - x0| = |y1 - y0|`) segment, with `n = max |x1 - x0| |y1 - y0|`, `drawLine` plots
exactly the `n + 1` points `(x0 + k * sign (x1 - x0), y0 + k * sign (y1 - y0))` for
`k = 0 .. n`, in that order. -/
theorem drawLine_straight (fuel : Nat) (screen : Screen) (x0 y0 x1 y1 : Int) (c : Char)
    (n : Nat) (hn : (n : Int) = max |x1 - x0| |y1 - y0|)
    (hshape : y0 = y1 ∨ x0 = x1 ∨ |x1 - x0| = |y1 - y0|) (hfuel : n < fuel) :
    (drawLine fuel screen x0 y0 x1 y1 c).map Prod.snd =
      some ((List.range (n + 1)).map
        (fun k : Nat => (x0 + (k : Int) * Int.sign (x1 - x0), y0 + (k : Int) * Int.sign (y1 - y0)))) := by
  have hlen : n = lineLen x0 y0 x1 y1 := by
    have := lineLen_cast_abs x0 y0 x1 y1
    omega
  subst hlen
  rw [drawLine_eq fuel screen x0 y0 x1 y1 c hfuel]
  simp only [Option.map_some', Option.some.injEq]
  unfold linePoints lineTrace
  apply List.map_congr_left
  intro k hk
  rw [List.mem_range] at hk
  have h := lineStateAt_straight x0 y0 x1 y1 (by simpa [cAbs_eq_abs] using hshape) k (by omega)
  unfold lineStateAt at h
  exact h

/-- Witness for C10: the 45-degree segment from (2, 3) to (-1, 6). -/
theorem drawLine_straight_witness :
    (drawLine 4 (fun _ _ => ' ') 2 3 (-1) 6 '#').map Prod.snd =
      some ((List.range (3 + 1)).map
        (fun k : Nat => (2 + (k : Int) * Int.sign (-1 - 2), 3 + (k : Int) * Int.sign (6 - 3)))) :=
  drawLine_straight 4 (fun _ _ => ' ') 2 3 (-1) 6 '#' 3 (by decide) (by decide) (by decide)

/-- C5 (counterexample): a segment from the sentinel (-1, -1) to the visible point
(35, 14) does plot cells of the grid: afterwards row 14, column 35 holds `'#'`, so the
buffer is not the blank buffer it was before. -/
theorem sentinel_segment_counterexample :
    ∃ screen2 pts, drawLine 37 (fun _ _ => ' ') (-1) (-1) 35 14 '#' = some (screen2, pts) ∧
      screen2 ⟨14, by decide⟩ ⟨35, by decide⟩ = '#' ∧ screen2 ≠ (fun _ _ => ' ') := by
  have hcell : plotAll '#' (linePoints (-1) (-1) 35 14) (fun _ _ => ' ')
      ⟨14, by decide⟩ ⟨35, by decide⟩ = '#' := by
    rw [plotAll_apply]
    have hmem : (((35 : Nat) : Int), ((14 : Nat) : Int)) ∈ linePoints (-1) (-1) 35 14 := by
      decide
    simp only [hmem, if_true]
  refine ⟨_, _, drawLine_eq 37 _ (-1) (-1) 35 14 '#' (by decide), hcell, ?_⟩
  intro h
  rw [h] at hcell
  exact absurd hcell (by decide)

/-- C5 (amended): for every segment with one end point at the sentinel (-1, -1) and
the other end point having a negative `x` or a negative `y` (in particular the
sentinel itself), `drawLine` returns, none of the points it plots lies in the grid,
and the buffer after `drawLine` is the buffer before. -/
theorem drawLine_sentinel_offscreen (fuel : Nat) (screen : Screen) (x0 y0 x1 y1 : Int)
    (c : Char)
    (hsent : (x0 = -1 ∧ y0 = -1 ∧ (x1 < 0 ∨ y1 < 0)) ∨
      (x1 = -1 ∧ y1 = -1 ∧ (x0 < 0 ∨ y0 < 0)))
    (hfuel : max |x1 - x0| |y1 - y0| < (fuel : Int)) :
    ∃ pts, drawLine fuel screen x0 y0 x1 y1 c = some (screen, pts) ∧
      ∀ p ∈ pts, ¬ (0 ≤ p.1 ∧ p.1 < 80 ∧ 0 ≤ p.2 ∧ p.2 < 24) := by
  rw [← lineLen_cast_abs] at hfuel
  have hout : ∀ p ∈ linePoints x0 y0 x1 y1, ¬ InBounds p := by
    intro p hp hin
    have hbox := linePoints_box x0 y0 x1 y1 p hp
    simp only [InBounds] at hin
    omega
  refine ⟨linePoints x0 y0 x1 y1, ?_, ?_⟩
  · rw [drawLine_eq fuel screen x0 y0 x1 y1 c (by exact_mod_cast hfuel),
      plotAll_offscreen c _ screen hout]
  · intro p hp
    simpa [InBounds] using hout p hp

/-- Witness for C5: from the sentinel to (-7, 30), left of the grid. -/
theorem drawLine_sentinel_offscreen_witness :
    ∃ pts, drawLine 32 (fun _ _ => ' ') (-1) (-1) (-7) 30 '#' = some ((fun _ _ => ' '), pts) ∧
      ∀ p ∈ pts, ¬ (0 ≤ p.1 ∧ p.1 < 80 ∧ 0 ≤ p.2 ∧ p.2 < 24) :=
  drawLine_sentinel_offscreen 32 (fun _ _ => ' ') (-1) (-1) (-7) 30 '#'
    (Or.inl ⟨rfl, rfl, Or.inl (by decide)⟩) (by decide)

/-! ## Claims about the projector and the scene -/

/-- C6: for all `x`, `y`, `z` with `z + 5.0 ≤ 0.1`, `project3D` returns the invisible
sentinel `screenX = -1`, `screenY = -1`, whatever `x` and `y` are. -/
theorem project3D_behind_camera (x y z : ℚ) (h : z + 5 ≤ 1 / 10) :
    project3D x y z = some (-1, -1) := by
  unfold project3D
  simp only [gate_closed z h, if_false]

/-- Witness for C6: a point at depth -5. -/
theorem project3D_behind_camera_witness : project3D 7 (-3) (-5) = some (-1, -1) :=
  project3D_behind_camera 7 (-3) (-5) (by norm_num)

/-- C7: `project3D(0, 0, 0)` is the screen centre (40, 12), and so is
`project3D(0, 0, z)` for every binary32 depth `z` with `z + 5.0 > 0.1`. -/
theorem project3D_origin_center :
    project3D 0 0 0 = some (40, 12) ∧
    ∀ z : ℚ, f32 z = z → 1 / 10 < z + 5 → project3D 0 0 z = some (40, 12) := by
  have hgen : ∀ z : ℚ, f32 z = z → 1 / 10 < z + 5 → project3D 0 0 z = some (40, 12) := by
    intro z hz h
    have h40 : f32 40 = 40 :=
      f32_pos_eq 40 40 5 10485760 (by norm_num) (by norm_num) (by norm_num) (by norm_num)
        (by norm_num) (by norm_num)
    have h12 : f32 12 = 12 :=
      f32_pos_eq 12 12 3 12582912 (by norm_num) (by norm_num) (by norm_num) (by norm_num)
        (by norm_num) (by norm_num)
    exact project3D_eq 0 0 z (f32 (z + 5)) 0 0 0 0 40 12 40 12 rfl (gate_open z hz h)
      (f32_of_eq _ 0 _ (by simp) f32_zero) (f32_of_eq _ 0 _ (by simp) f32_zero)
      (f32_of_eq _ 0 _ (by simp) f32_zero) (f32_of_eq _ 0 _ (by simp) f32_zero)
      (f32_of_eq _ 40 _ (by norm_num) h40) (f32_of_eq _ 12 _ (by norm_num) h12)
      (toInt_of_nonneg _ _ (by norm_num) (by norm_num) (by norm_num) (by norm_num))
      (toInt_of_nonneg _ _ (by norm_num) (by norm_num) (by norm_num) (by norm_num))
  exact ⟨hgen 0 f32_zero (by norm_num), hgen⟩

/-- Witness for C7: the depth `z = 1`. -/
theorem project3D_origin_center_witness : project3D 0 0 1 = some (40, 12) :=
  project3D_origin_center.2 1 f32_one (by norm_num)

/-- C8: one frame of the reference cube at depth offset 0 in a cleared buffer.  The
projected vertices are (35,14), (45,14), (45,9), (35,9), (36,13), (43,13), (43,10),
(36,10) for vertices 0..7, `drawCube` returns, and afterwards the cells holding the
vertex marker `'*'` are exactly these eight cells. -/
theorem drawCube_reference_frame (fuel : Nat) (screen : Screen) (hfuel : 10 < fuel) :
    projectVertices cube 0 8 =
      some [(35, 14), (45, 14), (45, 9), (35, 9), (36, 13), (43, 13), (43, 10), (36, 10)] ∧
    ∃ screen2, drawCube fuel (clearScreen screen) cube 0 = some screen2 ∧
      ∀ (i : Fin HEIGHT) (j : Fin WIDTH),
        screen2 i j = '*' ↔
          (((j : Nat) : Int), ((i : Nat) : Int)) ∈
            [((35 : Int), (14 : Int)), (45, 14), (45, 9), (35, 9), (36, 13), (43, 13),
              (43, 10), (36, 10)] := by
  refine ⟨projectVertices_cube, ?_⟩
  have hedges : ∀ e ∈ edges, ∃ p0 p1 : Int × Int,
      [((35 : Int), (14 : Int)), (45, 14), (45, 9), (35, 9), (36, 13), (43, 13),
        (43, 10), (36, 10)][e.1]? = some p0 ∧
      [((35 : Int), (14 : Int)), (45, 14), (45, 9), (35, 9), (36, 13), (43, 13),
        (43, 10), (36, 10)][e.2]? = some p1 ∧
      lineLen p0.1 p0.2 p1.1 p1.2 < fuel := by
    intro e he
    simp only [edges, List.mem_cons, List.mem_singleton, List.not_mem_nil, or_false] at he
    rcases he with rfl | rfl | rfl | rfl | rfl | rfl | rfl | rfl | rfl | rfl | rfl | rfl <;>
      exact ⟨_, _, rfl, rfl, lt_of_le_of_lt (by decide) hfuel⟩
  obtain ⟨screen1, hs1, hcells⟩ := drawEdges_spec fuel _ edges (clearScreen screen) hedges
  have hmark := drawMarkers_eq screen1
    [((35 : Int), (14 : Int)), (45, 14), (45, 9), (35, 9), (36, 13), (43, 13),
      (43, 10), (36, 10)]
  refine ⟨plotAll '*' [((35 : Int), (14 : Int)), (45, 14), (45, 9), (35, 9), (36, 13),
    (43, 13), (43, 10), (36, 10)] screen1, ?_, ?_⟩
  · unfold drawCube
    simp only [projectVertices_cube, hs1, Option.bind_eq_bind, Option.some_bind]
    exact hmark
  · intro i j
    rw [plotAll_apply]
    have hbg : screen1 i j ≠ '*' := by
      rcases hcells i j with hc | hc
      · rw [hc, clearScreen_apply]; decide
      · rw [hc]; decide
    constructor
    · intro h
      by_contra hmem
      rw [if_neg hmem] at h
      exact hbg h
    · intro hmem
      rw [if_pos hmem]

/-- Witness for C8: fuel 11, starting from a buffer full of `'x'`. -/
theorem drawCube_reference_frame_witness :
    ∃ screen2, drawCube 11 (clearScreen (fun _ _ => 'x')) cube 0 = some screen2 ∧
      ∀ (i : Fin HEIGHT) (j : Fin WIDTH),
        screen2 i j = '*' ↔
          (((j : Nat) : Int), ((i : Nat) : Int)) ∈
            [((35 : Int), (14 : Int)), (45, 14), (45, 9), (35, 9), (36, 13), (43, 13),
              (43, 10), (36, 10)] :=
  (drawCube_reference_frame 11 (fun _ _ => 'x') (by decide)).2

/-- C11: for every integer point `p = (x, y)` and character `c`, `drawLine(p, p, c)`
plots exactly one point: it returns with any positive fuel, the plotted sequence is
`[p]`, every cell other than `p` keeps its content, and when `p` is outside the grid
the buffer is unchanged. -/
theorem drawLine_degenerate (fuel : Nat) (screen : Screen) (x y : Int) (c : Char)
    (hfuel : 0 < fuel) :
    ∃ screen2, drawLine fuel screen x y x y c = some (screen2, [(x, y)]) ∧
      (∀ (i : Fin HEIGHT) (j : Fin WIDTH), ¬ (((i : Nat) : Int) = y ∧ ((j : Nat) : Int) = x) →
        screen2 i j = screen i j) ∧
      (¬ (0 ≤ x ∧ x < 80 ∧ 0 ≤ y ∧ y < 24) → screen2 = screen) := by
  obtain ⟨f, rfl⟩ : ∃ f, fuel = f + 1 := ⟨fuel - 1, by omega⟩
  refine ⟨drawPixel screen x y c, ?_, ?_, ?_⟩
  · simp [drawLine, drawLineLoop]
  · intro i j hij
    rw [drawPixel_apply]
    have h1 : ¬ (((j : Nat) : Int) = x ∧ ((i : Nat) : Int) = y) := fun h2 => hij ⟨h2.2, h2.1⟩
    simp [h1]
  · intro h
    apply drawPixel_out
    simpa [InBounds] using h

/-- Witness for C11: the point (7, 3) with fuel 1. -/
theorem drawLine_degenerate_witness :
    ∃ screen2, drawLine 1 (fun _ _ => ' ') 7 3 7 3 '#' = some (screen2, [(7, 3)]) ∧
      (∀ (i : Fin HEIGHT) (j : Fin WIDTH), ¬ (((i : Nat) : Int) = 3 ∧ ((j : Nat) : Int) = 7) →
        screen2 i j = ' ') ∧
      (¬ ((0 : Int) ≤ 7 ∧ (7 : Int) < 80 ∧ (0 : Int) ≤ 3 ∧ (3 : Int) < 24) →
        screen2 = (fun _ _ => ' ')) :=
  drawLine_degenerate 1 (fun _ _ => ' ') 7 3 '#' (by decide)

/-- C15: for every buffer content, after `clearScreen` every one of the 24x80 cells
holds a space, and the result does not depend on the previous content. -/
theorem clearScreen_spec (screen other : Screen) :
    (∀ (i : Fin HEIGHT) (j : Fin WIDTH), clearScreen screen i j = ' ') ∧
    clearScreen screen = clearScreen other := by
  refine ⟨fun i j => clearScreen_apply screen i j, ?_⟩
  funext i j
  rw [clearScreen_apply, clearScreen_apply]

/-- C16: the edge table of `drawCube` has exactly 12 edges over the 8 vertices of
`cube`; both indices of every edge lie in `[0, 8)` and are distinct, and every vertex
is an end point of exactly 3 edges. -/
theorem edges_cube_graph :
    edges.length = 12 ∧ cube.length = 8 ∧
    (∀ e ∈ edges, e.1 < 8 ∧ e.2 < 8 ∧ e.1 ≠ e.2) ∧
    (∀ v, v < 8 → (edges.filter (fun e => e.1 = v ∨ e.2 = v)).length = 3) := by
  refine ⟨rfl, rfl, by decide, by decide⟩

/-- C18: for all integer end points, `drawLine` plots exactly
`max |x1 - x0| |y1 - y0| + 1` points, every plotted point lies in the bounding box
of the two end points, and from one plotted point to the next the coordinate along
a major axis advances by exactly one cell (towards the end point). -/
theorem drawLine_count_box_major (fuel : Nat) (screen : Screen) (x0 y0 x1 y1 : Int)
    (c : Char) (hfuel : max |x1 - x0| |y1 - y0| < (fuel : Int)) :
    ∃ screen2 pts, drawLine fuel screen x0 y0 x1 y1 c = some (screen2, pts) ∧
      (pts.length : Int) = max |x1 - x0| |y1 - y0| + 1 ∧
      (∀ p ∈ pts, min x0 x1 ≤ p.1 ∧ p.1 ≤ max x0 x1 ∧ min y0 y1 ≤ p.2 ∧ p.2 ≤ max y0 y1) ∧
      (|y1 - y0| ≤ |x1 - x0| →
        List.Chain' (fun p q : Int × Int =>
          q.1 = p.1 + Int.sign (x1 - x0) ∧ |q.1 - p.1| = 1) pts) ∧
      (|x1 - x0| ≤ |y1 - y0| →
        List.Chain' (fun p q : Int × Int =>
          q.2 = p.2 + Int.sign (y1 - y0) ∧ |q.2 - p.2| = 1) pts) := by
  have hlen := lineLen_cast_abs x0 y0 x1 y1
  rw [← hlen] at hfuel
  refine ⟨_, _, drawLine_eq fuel screen x0 y0 x1 y1 c (by exact_mod_cast hfuel), ?_,
    linePoints_box x0 y0 x1 y1, ?_, ?_⟩
  · rw [linePoints_length, ← hlen]
    push_cast
    rfl
  · intro hmaj
    rw [← cAbs_eq_abs, ← cAbs_eq_abs] at hmaj
    exact (linePoints_major_step x0 y0 x1 y1).1 hmaj
  · intro hmaj
    rw [← cAbs_eq_abs, ← cAbs_eq_abs] at hmaj
    exact (linePoints_major_step x0 y0 x1 y1).2 hmaj

/-- Witness for C18: the segment from (4, 1) to (-3, 4) with fuel 8. -/
theorem drawLine_count_box_major_witness :
    ∃ screen2 pts, drawLine 8 (fun _ _ => ' ') 4 1 (-3) 4 '#' = some (screen2, pts) ∧
      (pts.length : Int) = max |(-3 : Int) - 4| |(4 : Int) - 1| + 1 ∧
      (∀ p ∈ pts, min 4 (-3) ≤ p.1 ∧ p.1 ≤ max 4 (-3) ∧ min 1 4 ≤ p.2 ∧ p.2 ≤ max 1 4) ∧
      (|(4 : Int) - 1| ≤ |(-3 : Int) - 4| →
        List.Chain' (fun p q : Int × Int =>
          q.1 = p.1 + Int.sign (-3 - 4) ∧ |q.1 - p.1| = 1) pts) ∧
      (|(-3 : Int) - 4| ≤ |(4 : Int) - 1| →
        List.Chain' (fun p q : Int × Int =>
          q.2 = p.2 + Int.sign (4 - 1) ∧ |q.2 - p.2| = 1) pts) :=
  drawLine_count_box_major 8 (fun _ _ => ' ') 4 1 (-3) 4 '#' (by decide)

/-- C19: every point `(x, y)` plotted by `drawLine` from `(x0, y0)` to `(x1, y1)` is
within half a cell of the ideal line along the minor axis:
`2 * |(x - x0) * (y1 - y0) - (y - y0) * (x1 - x0)| ≤ max |x1 - x0| |y1 - y0|`. -/
theorem drawLine_half_cell (fuel : Nat) (screen : Screen) (x0 y0 x1 y1 : Int)
    (c : Char) (hfuel : max |x1 - x0| |y1 - y0| < (fuel : Int)) :
    ∃ screen2 pts, drawLine fuel screen x0 y0 x1 y1 c = some (screen2, pts) ∧
      ∀ p ∈ pts, 2 * |(p.1 - x0) * (y1 - y0) - (p.2 - y0) * (x1 - x0)| ≤
        max |x1 - x0| |y1 - y0| := by
  rw [← lineLen_cast_abs] at hfuel
  refine ⟨_, _, drawLine_eq fuel screen x0 y0 x1 y1 c (by exact_mod_cast hfuel), ?_⟩
  intro p hp
  have h := linePoints_deviation x0 y0 x1 y1 p hp
  rwa [cAbs_eq_abs, cAbs_eq_abs] at h

/-- Witness for C19: the segment from (0, 0) to (7, -3) with fuel 8. -/
theorem drawLine_half_cell_witness :
    ∃ screen2 pts, drawLine 8 (fun _ _ => ' ') 0 0 7 (-3) '#' = some (screen2, pts) ∧
      ∀ p ∈ pts, 2 * |(p.1 - 0) * (-3 - 0) - (p.2 - 0) * (7 - 0)| ≤
        max |(7 : Int) - 0| |(-3 : Int) - 0| :=
  drawLine_half_cell 8 (fun _ _ => ' ') 0 0 7 (-3) '#' (by decide)

/-- C12 (evaluation at the failing input): vertex 6 of the reference cube, `(1, 1, 1)`,
is visible in frames 0 and 10 of `main`; it is projected to (43, 10) in frame 0 and to
(44, 10) in frame 10, which is farther from the centre column 40, not nearer. -/
theorem animation_projection_grows :
    cube[6]? = some (1, 1, 1) ∧
    project3D 1 1 (fadd 1 (frameOffset 0)) = some (43, 10) ∧
    project3D 1 1 (fadd 1 (frameOffset 10)) = some (44, 10) ∧
    ¬ (|(44 : ℤ) - 40| ≤ |(43 : ℤ) - 40|) :=
  ⟨rfl, project3D_v6_frame0, project3D_v6_frame10, by decide⟩

/-- C13: `project3D` is monotone in depth.  For fixed `x`, `y` and depths `z1 ≤ z2`
with `z1` a binary32 value and `z1 + 5.0 > 0.1`: when the call at `z1` stores
`(a1, b1)`, the call at `z2` stores some `(a2, b2)` that is no farther from the screen
centre, `|a2 - 40| ≤ |a1 - 40|` and `|b2 - 12| ≤ |b1 - 12|`, truncation included. -/
theorem project3D_monotone_depth (x y z1 z2 : ℚ) (a1 b1 : ℤ) (hz1 : f32 z1 = z1)
    (h12 : z1 ≤ z2) (hvis : 1 / 10 < z1 + 5) (h1 : project3D x y z1 = some (a1, b1)) :
    ∃ a2 b2, project3D x y z2 = some (a2, b2) ∧
      |a2 - 40| ≤ |a1 - 40| ∧ |b2 - 12| ≤ |b1 - 12| := by
  have hg1 : fadd z1 5 > f32 (1 / 10) := gate_open z1 hz1 hvis
  have hg2 : fadd z2 5 > f32 (1 / 10) :=
    lt_of_lt_of_le hg1 (f32_mono (by linarith))
  rw [project3D_open_eq_some x y z1 hg1] at h1
  obtain ⟨a2, ha2, hax⟩ := screenX_towards_center x z1 z2 a1 hg1 h12 h1.1
  obtain ⟨b2, hb2, hby⟩ := screenY_towards_center y z1 z2 b1 hg1 h12 h1.2
  exact ⟨a2, b2, (project3D_open_eq_some x y z2 hg2 a2 b2).mpr ⟨ha2, hb2⟩, hax, hby⟩

/-- Witness for C13: the point (1, 1) at depths -1 and 1. -/
theorem project3D_monotone_depth_witness :
    ∃ a2 b2, project3D 1 1 1 = some (a2, b2) ∧
      |a2 - 40| ≤ |(45 : ℤ) - 40| ∧ |b2 - 12| ≤ |(9 : ℤ) - 12| :=
  project3D_monotone_depth 1 1 (-1) 1 45 9 f32_neg_one (by norm_num) (by norm_num)
    project3D_v2

/-- C17 (counterexample): the binary32 point (-8.25, 5.25, -1) is in front of the near
plane, `z + 5.0 = 4 > 0.1`, and yet `project3D` stores the sentinel (-1, -1) for it. -/
theorem sentinel_for_visible_point_counterexample :
    f32 (-33 / 4) = -33 / 4 ∧ f32 (21 / 4) = 21 / 4 ∧ f32 (-1) = -1 ∧
    ¬ ((-1 : ℚ) + 5 ≤ 1 / 10) ∧
    project3D (-33 / 4) (21 / 4) (-1) = some (-1, -1) :=
  ⟨f32_neg_33_4, f32_21_4, f32_neg_one, by norm_num, project3D_offscreen_sentinel⟩

/-- C17 (amended): for every binary32 depth `z`, `project3D` stores (-1, -1) if and
only if `z + 5.0 ≤ 0.1`, or `z + 5.0 > 0.1` and both screen values lie in `(-2, -1]`
before the conversion to `int`, so that they truncate to -1. -/
theorem project3D_sentinel_iff (x y z : ℚ) (hz : f32 z = z) :
    project3D x y z = some (-1, -1) ↔
      (z + 5 ≤ 1 / 10 ∨
        (1 / 10 < z + 5 ∧ -2 < screenXf x z ∧ screenXf x z ≤ -1 ∧
          -2 < screenYf y z ∧ screenYf y z ≤ -1)) := by
  rcases le_or_lt (z + 5) (1 / 10) with h | h
  · have hsent : project3D x y z = some (-1, -1) := by
      unfold project3D
      simp only [gate_closed z h, if_false]
    simp only [hsent, h, true_or]
  · rw [project3D_open_eq_some x y z (gate_open z hz h), toInt_eq_neg_one, toInt_eq_neg_one]
    constructor
    · rintro ⟨⟨h1, h2⟩, h3, h4⟩
      exact Or.inr ⟨h, h1, h2, h3, h4⟩
    · rintro (h5 | ⟨_, h1, h2, h3, h4⟩)
      · exact absurd h5 (not_le.mpr h)
      · exact ⟨⟨h1, h2⟩, h3, h4⟩

/-- Witness for C17: the depth `z = 1`. -/
theorem project3D_sentinel_iff_witness :
    project3D 3 2 1 = some (-1, -1) ↔
      ((1 : ℚ) + 5 ≤ 1 / 10 ∨
        (1 / 10 < (1 : ℚ) + 5 ∧ -2 < screenXf 3 1 ∧ screenXf 3 1 ≤ -1 ∧
          -2 < screenYf 2 1 ∧ screenYf 2 1 ≤ -1)) :=
  project3D_sentinel_iff 3 2 1 f32_one

/-- C14: the animation runs a fixed number of frames and never writes outside the
24x80 buffer.  With enough fuel `main` returns after exactly 100 iterations of the
frame loop, for `frame = 0 .. 99`.  The store in `drawPixel` is always inside the
array, so `drawCube` with raw array stores computes the same buffer for every vertex
array and every depth offset.  Whenever the eight projections are defined there are
eight of them, both vertex indices of every edge are inside `projected`, and
`drawCube` returns. -/
theorem animation_frames_and_stores (screen0 : Screen) (lineFuel fuel : Nat)
    (hl : 400 < lineFuel) (hf : 100 < fuel) :
    (∃ frames, main lineFuel fuel screen0 = some frames ∧ frames.length = 100 ∧
      frames.map Prod.fst = (List.range 100).map (fun k : Nat => (k : Int))) ∧
    (∀ (screen : Screen) (x y : Int) (c : Char),
      drawPixelChecked screen x y c = some (drawPixel screen x y c)) ∧
    (∀ (fuel2 : Nat) (screen : Screen) (cubeArr : List (ℚ × ℚ × ℚ)) (translateZ : ℚ),
      drawCubeChecked fuel2 screen cubeArr translateZ =
        drawCube fuel2 screen cubeArr translateZ) ∧
    (∀ (cubeArr : List (ℚ × ℚ × ℚ)) (translateZ : ℚ) (projected : List (Int × Int)),
      projectVertices cubeArr translateZ 8 = some projected →
        projected.length = 8 ∧
        (∀ e ∈ edges, e.1 < projected.length ∧ e.2 < projected.length) ∧
        ∀ (screen : Screen) (fuel2 : Nat), 2 ^ 32 ≤ fuel2 →
          ∃ screen2, drawCube fuel2 screen cubeArr translateZ = some screen2) := by
  refine ⟨?_, drawPixelChecked_eq, drawCubeChecked_eq, ?_⟩
  · obtain ⟨frames, hframes, hmap⟩ :=
      mainLoop_runs lineFuel hl 100 0 screen0 fuel (by norm_num) hf
    refine ⟨frames, hframes, ?_, ?_⟩
    · have := congrArg List.length hmap
      simpa using this
    · rw [hmap]
      apply List.map_congr_left
      intro k _
      simp
  · intro cubeArr translateZ projected hproj
    obtain ⟨hlen, hrange⟩ := projectVertices_range cubeArr translateZ 8 projected hproj
    have hidx : ∀ e ∈ edges, e.1 < 8 ∧ e.2 < 8 := by decide
    refine ⟨hlen, ?_, ?_⟩
    · intro e he
      rw [hlen]
      exact hidx e he
    · intro screen fuel2 hfuel2
      apply drawCube_defined fuel2 screen cubeArr translateZ projected hproj
      intro p hp q hq
      have h := lineLen_lt_of_range p.1 p.2 q.1 q.2 (2 ^ 31) (hrange p hp) (hrange q hq)
      have h2 : ((2 ^ 32 : Nat) : Int) ≤ (fuel2 : Int) := by exact_mod_cast hfuel2
      have h3 : ((lineLen p.1 p.2 q.1 q.2 : Nat) : Int) < (fuel2 : Int) := by
        norm_num at h h2 ⊢
        omega
      exact_mod_cast h3

/-- Witness for C14: line fuel 401 and loop fuel 101, from a buffer full of `'x'`. -/
theorem animation_frames_and_stores_witness :
    ∃ frames, main 401 101 (fun _ _ => 'x') = some frames ∧ frames.length = 100 ∧
      frames.map Prod.fst = (List.range 100).map (fun k : Nat => (k : Int)) :=
  (animation_frames_and_stores (fun _ _ => 'x') 401 101 (by decide) (by decide)).1

end Cube

/-! # Menu navigation: proofs -/

namespace TerminalUI

theorem enabledAt_selected (title : String) (items : Fin MAX_MENU_ITEMS → MenuItem)
    (n s i : Int) : (Menu.mk title items n s).enabledAt i = (Menu.mk title items n 0).enabledAt i :=
  rfl

theorem enabledAt_iff (menu : Menu) (i : Int) :
    menu.enabledAt i = true ↔ ∃ it, menu.item i = some it ∧ it.enabled ≠ 0 := by
  unfold Menu.enabledAt
  cases h : menu.item i with
  | none => simp
  | some it => simp

theorem item_isSome (menu : Menu) (i : Int) (h0 : 0 ≤ i) (h1 : i < 10) :
    ∃ it, menu.item i = some it := by
  unfold Menu.item
  rw [dif_pos ⟨h0, by simpa using h1⟩]
  exact ⟨_, rfl⟩

theorem enabledAt_false_iff (menu : Menu) (i : Int) (h0 : 0 ≤ i) (h1 : i < 10) :
    menu.enabledAt i = false ↔ ∃ it, menu.item i = some it ∧ it.enabled = 0 := by
  obtain ⟨it, hit⟩ := item_isSome menu i h0 h1
  unfold Menu.enabledAt
  rw [hit]
  simp

/-- The forward step with wrap-around is the successor modulo `n`. -/
theorem step_down_eq (n cur : Int) (h0 : 0 ≤ cur) (h1 : cur < n) :
    (if cur + 1 ≥ n then 0 else cur + 1) = (cur + 1) % n := by
  split_ifs with h
  · have : cur + 1 = n := by omega
    rw [this, Int.emod_self]
  · rw [Int.emod_eq_of_lt (by omega) (by omega)]

/-- The backward step with wrap-around is the predecessor modulo `n`. -/
theorem step_up_eq (n cur : Int) (h0 : 0 ≤ cur) (h1 : cur < n) :
    (if cur - 1 < 0 then n - 1 else cur - 1) = (cur - 1) % n := by
  split_ifs with h
  · have hc : cur = 0 := by omega
    subst hc
    have : (0 - 1 : Int) % n = (n - 1) % n := by
      rw [← Int.add_emod_self]; congr 1; ring
    rw [this, Int.emod_eq_of_lt (by omega) (by omega)]
  · rw [Int.emod_eq_of_lt (by omega) (by omega)]

theorem moveDown_spec (title : String) (items : Fin MAX_MENU_ITEMS → MenuItem) (n : Int)
    (hn1 : 1 ≤ n) (hn2 : n ≤ 10) :
    ∀ (k : Nat) (cur : Int) (fuel : Nat), 0 ≤ cur → cur < n → k < fuel →
      (Menu.mk title items n 0).enabledAt ((cur + (k + 1 : Nat)) % n) = true →
      (∀ j : Nat, 1 ≤ j → j < k + 1 →
        (Menu.mk title items n 0).enabledAt ((cur + j) % n) = false) →
      moveDown fuel (Menu.mk title items n cur) =
        some (Menu.mk title items n ((cur + (k + 1 : Nat)) % n)) := by
  intro k
  induction k with
  | zero =>
    intro cur fuel h0 h1 hfuel hen _
    obtain ⟨f, rfl⟩ : ∃ f, fuel = f + 1 := ⟨fuel - 1, by omega⟩
    have hstep := step_down_eq n cur h0 h1
    simp only [zero_add, Nat.cast_one] at hen ⊢
    obtain ⟨it, hit, hne⟩ := (enabledAt_iff _ _).mp hen
    rw [moveDown]
    simp only [ge_iff_le]
    by_cases hw : n ≤ cur + 1
    · have hz : (cur + 1) % n = 0 := by
        rw [← hstep, if_pos hw]
      rw [hz] at hit ⊢
      simp only [hw, if_true]
      have hit2 : (Menu.mk title items n 0).item 0 = some it := hit
      rw [hit2]
      simp only [hne, if_false]
    · have hz : (cur + 1) % n = cur + 1 := by
        rw [← hstep, if_neg hw]
      rw [hz] at hit ⊢
      simp only [hw, if_false]
      have hit2 : (Menu.mk title items n (cur + 1)).item (cur + 1) = some it := hit
      rw [hit2]
      simp only [hne, if_false]
  | succ k ih =>
    intro cur fuel h0 h1 hfuel hen hdis
    obtain ⟨f, rfl⟩ : ∃ f, fuel = f + 1 := ⟨fuel - 1, by omega⟩
    have hstep := step_down_eq n cur h0 h1
    have hnext0 : 0 ≤ (cur + 1) % n := Int.emod_nonneg _ (by omega)
    have hnext1 : (cur + 1) % n < n := Int.emod_lt_of_pos _ (by omega)
    have hd1 := hdis 1 (le_refl _) (by omega)
    simp only [Nat.cast_one] at hd1
    obtain ⟨it, hit, hzero⟩ := (enabledAt_false_iff _ _ hnext0 (by omega)).mp hd1
    have hrec := ih ((cur + 1) % n) f hnext0 hnext1 (by omega)
      (by
        rw [Int.emod_add_emod]
        have : cur + 1 + ((k + 1 : Nat) : Int) = cur + ((k + 1 + 1 : Nat) : Int) := by
          push_cast; ring
        rw [this]; exact hen)
      (by
        intro j hj1 hj2
        rw [Int.emod_add_emod]
        have : cur + 1 + (j : Int) = cur + ((j + 1 : Nat) : Int) := by push_cast; ring
        rw [this]
        exact hdis (j + 1) (by omega) (by omega))
    have htarget : ((cur + 1) % n + ((k + 1 : Nat) : Int)) % n =
        (cur + ((k + 1 + 1 : Nat) : Int)) % n := by
      rw [Int.emod_add_emod]; congr 1; push_cast; ring
    rw [htarget] at hrec
    rw [moveDown]
    simp only [ge_iff_le]
    by_cases hw : n ≤ cur + 1
    · have hz : (cur + 1) % n = 0 := by rw [← hstep, if_pos hw]
      rw [hz] at hit hrec
      simp only [hw, if_true]
      have hit2 : (Menu.mk title items n 0).item 0 = some it := hit
      rw [hit2]
      simp only [hzero, if_true]
      exact hrec
    · have hz : (cur + 1) % n = cur + 1 := by rw [← hstep, if_neg hw]
      rw [hz] at hit hrec
      simp only [hw, if_false]
      have hit2 : (Menu.mk title items n (cur + 1)).item (cur + 1) = some it := hit
      rw [hit2]
      simp only [hzero, if_true]
      exact hrec

theorem emod_sub_emod_left (a b n : Int) : (a % n - b) % n = (a - b) % n := by
  rw [Int.sub_emod, Int.emod_emod, ← Int.sub_emod]

theorem sub_emod_emod_right (a b n : Int) : (a - b % n) % n = (a - b) % n := by
  rw [Int.sub_emod, Int.emod_emod, ← Int.sub_emod]

theorem moveUp_spec (title : String) (items : Fin MAX_MENU_ITEMS → MenuItem) (n : Int)
    (hn1 : 1 ≤ n) (hn2 : n ≤ 10) :
    ∀ (k : Nat) (cur : Int) (fuel : Nat), 0 ≤ cur → cur < n → k < fuel →
      (Menu.mk title items n 0).enabledAt ((cur - (k + 1 : Nat)) % n) = true →
      (∀ j : Nat, 1 ≤ j → j < k + 1 →
        (Menu.mk title items n 0).enabledAt ((cur - j) % n) = false) →
      moveUp fuel (Menu.mk title items n cur) =
        some (Menu.mk title items n ((cur - (k + 1 : Nat)) % n)) := by
  intro k
  induction k with
  | zero =>
    intro cur fuel h0 h1 hfuel hen _
    obtain ⟨f, rfl⟩ : ∃ f, fuel = f + 1 := ⟨fuel - 1, by omega⟩
    have hstep := step_up_eq n cur h0 h1
    simp only [zero_add, Nat.cast_one] at hen ⊢
    obtain ⟨it, hit, hne⟩ := (enabledAt_iff _ _).mp hen
    rw [moveUp]
    by_cases hw : cur - 1 < 0
    · have hz : (cur - 1) % n = n - 1 := by rw [← hstep, if_pos hw]
      rw [hz] at hit ⊢
      simp only [hw, if_true]
      have hit2 : (Menu.mk title items n (n - 1)).item (n - 1) = some it := hit
      rw [hit2]
      simp only [hne, if_false]
    · have hz : (cur - 1) % n = cur - 1 := by rw [← hstep, if_neg hw]
      rw [hz] at hit ⊢
      simp only [hw, if_false]
      have hit2 : (Menu.mk title items n (cur - 1)).item (cur - 1) = some it := hit
      rw [hit2]
      simp only [hne, if_false]
  | succ k ih =>
    intro cur fuel h0 h1 hfuel hen hdis
    obtain ⟨f, rfl⟩ : ∃ f, fuel = f + 1 := ⟨fuel - 1, by omega⟩
    have hstep := step_up_eq n cur h0 h1
    have hnext0 : 0 ≤ (cur - 1) % n := Int.emod_nonneg _ (by omega)
    have hnext1 : (cur - 1) % n < n := Int.emod_lt_of_pos _ (by omega)
    have hd1 := hdis 1 (le_refl _) (by omega)
    simp only [Nat.cast_one] at hd1
    obtain ⟨it, hit, hzero⟩ := (enabledAt_false_iff _ _ hnext0 (by omega)).mp hd1
    have hrec := ih ((cur - 1) % n) f hnext0 hnext1 (by omega)
      (by
        rw [emod_sub_emod_left]
        have : cur - 1 - ((k + 1 : Nat) : Int) = cur - ((k + 1 + 1 : Nat) : Int) := by
          push_cast; ring
        rw [this]; exact hen)
      (by
        intro j hj1 hj2
        rw [emod_sub_emod_left]
        have : cur - 1 - (j : Int) = cur - ((j + 1 : Nat) : Int) := by push_cast; ring
        rw [this]
        exact hdis (j + 1) (by omega) (by omega))
    have htarget : ((cur - 1) % n - ((k + 1 : Nat) : Int)) % n =
        (cur - ((k + 1 + 1 : Nat) : Int)) % n := by
      rw [emod_sub_emod_left]; congr 1; push_cast; ring
    rw [htarget] at hrec
    rw [moveUp]
    by_cases hw : cur - 1 < 0
    · have hz : (cur - 1) % n = n - 1 := by rw [← hstep, if_pos hw]
      rw [hz] at hit hrec
      simp only [hw, if_true]
      have hit2 : (Menu.mk title items n (n - 1)).item (n - 1) = some it := hit
      rw [hit2]
      simp only [hzero, if_true]
      exact hrec
    · have hz : (cur - 1) % n = cur - 1 := by rw [← hstep, if_neg hw]
      rw [hz] at hit hrec
      simp only [hw, if_false]
      have hit2 : (Menu.mk title items n (cur - 1)).item (cur - 1) = some it := hit
      rw [hit2]
      simp only [hzero, if_true]
      exact hrec

/-- Stepping cyclically forward from `s` one reaches an enabled index after at most
`n` steps; `k + 1` is the number of steps to the first one. -/
theorem exists_first_forward (e : Int → Bool) (n s : Int) (hn : 1 ≤ n)
    (h : ∃ i, 0 ≤ i ∧ i < n ∧ e i = true) :
    ∃ k : Nat, ((k + 1 : Nat) : Int) ≤ n ∧ e ((s + (k + 1 : Nat)) % n) = true ∧
      ∀ j : Nat, 1 ≤ j → j < k + 1 → e ((s + j) % n) = false := by
  obtain ⟨i, hi0, hi1, hei⟩ := h
  have hk0 : 0 ≤ (i - s - 1) % n := Int.emod_nonneg _ (by omega)
  have hk1 : (i - s - 1) % n < n := Int.emod_lt_of_pos _ (by omega)
  have hP : ∃ k : Nat, e ((s + (k + 1 : Nat)) % n) = true := by
    refine ⟨((i - s - 1) % n).toNat, ?_⟩
    have hcast : ((((i - s - 1) % n).toNat + 1 : Nat) : Int) = (i - s - 1) % n + 1 := by
      push_cast; omega
    rw [hcast]
    have : (s + ((i - s - 1) % n + 1)) % n = i := by
      rw [show s + ((i - s - 1) % n + 1) = (s + 1) + (i - s - 1) % n by ring,
        Int.add_emod_emod, show s + 1 + (i - s - 1) = i by ring,
        Int.emod_eq_of_lt hi0 hi1]
    rw [this]; exact hei
  refine ⟨Nat.find hP, ?_, Nat.find_spec hP, ?_⟩
  · have hle : Nat.find hP ≤ ((i - s - 1) % n).toNat := by
      apply Nat.find_min'
      have hcast : ((((i - s - 1) % n).toNat + 1 : Nat) : Int) = (i - s - 1) % n + 1 := by
        push_cast; omega
      rw [hcast]
      have : (s + ((i - s - 1) % n + 1)) % n = i := by
        rw [show s + ((i - s - 1) % n + 1) = (s + 1) + (i - s - 1) % n by ring,
          Int.add_emod_emod, show s + 1 + (i - s - 1) = i by ring,
          Int.emod_eq_of_lt hi0 hi1]
      rw [this]; exact hei
    push_cast
    omega
  · intro j hj1 hj2
    obtain ⟨m, rfl⟩ : ∃ m, j = m + 1 := ⟨j - 1, by omega⟩
    have := Nat.find_min hP (show m < Nat.find hP by omega)
    simpa using this

/-- Stepping cyclically backward from `s` one reaches an enabled index after at most
`n` steps; `k + 1` is the number of steps to the first one. -/
theorem exists_first_backward (e : Int → Bool) (n s : Int) (hn : 1 ≤ n)
    (h : ∃ i, 0 ≤ i ∧ i < n ∧ e i = true) :
    ∃ k : Nat, ((k + 1 : Nat) : Int) ≤ n ∧ e ((s - (k + 1 : Nat)) % n) = true ∧
      ∀ j : Nat, 1 ≤ j → j < k + 1 → e ((s - j) % n) = false := by
  obtain ⟨i, hi0, hi1, hei⟩ := h
  have hk0 : 0 ≤ (s - 1 - i) % n := Int.emod_nonneg _ (by omega)
  have hk1 : (s - 1 - i) % n < n := Int.emod_lt_of_pos _ (by omega)
  have hkey : e ((s - ((((s - 1 - i) % n).toNat + 1 : Nat) : Int)) % n) = true := by
    have hcast : ((((s - 1 - i) % n).toNat + 1 : Nat) : Int) = (s - 1 - i) % n + 1 := by
      push_cast; omega
    rw [hcast]
    have : (s - ((s - 1 - i) % n + 1)) % n = i := by
      rw [show s - ((s - 1 - i) % n + 1) = (s - 1) - (s - 1 - i) % n by ring,
        sub_emod_emod_right, show s - 1 - (s - 1 - i) = i by ring,
        Int.emod_eq_of_lt hi0 hi1]
    rw [this]; exact hei
  have hP : ∃ k : Nat, e ((s - (k + 1 : Nat)) % n) = true := ⟨_, hkey⟩
  refine ⟨Nat.find hP, ?_, Nat.find_spec hP, ?_⟩
  · have hle : Nat.find hP ≤ ((s - 1 - i) % n).toNat := Nat.find_min' hP hkey
    push_cast
    omega
  · intro j hj1 hj2
    obtain ⟨m, rfl⟩ : ∃ m, j = m + 1 := ⟨j - 1, by omega⟩
    have := Nat.find_min hP (show m < Nat.find hP by omega)
    simpa using this

/-- C20: menu navigation keeps the selection valid.  For every menu with
`1 ≤ item_count ≤ 10`, `0 ≤ selected < item_count` and at least one enabled item among
the first `item_count`, `handle_input` on the move-down key (resp. move-up key) returns
with any fuel of at least `item_count`; it returns 0, changes nothing but `selected`,
and leaves `selected` at the first enabled index met when stepping cyclically forward
(resp. backward) from the old selection, `k` steps away with `1 ≤ k ≤ item_count`.  The
new `selected` is in `[0, item_count)` and its item is enabled. -/
theorem handle_input_navigation (menu : Menu) (h1 : 1 ≤ menu.item_count)
    (h2 : menu.item_count ≤ 10) (h3 : 0 ≤ menu.selected)
    (h4 : menu.selected < menu.item_count)
    (h5 : ∃ i, 0 ≤ i ∧ i < menu.item_count ∧ menu.enabledAt i = true) :
    (∃ k : Nat, 1 ≤ k ∧ (k : Int) ≤ menu.item_count ∧
      menu.enabledAt ((menu.selected + k) % menu.item_count) = true ∧
      (∀ j : Nat, 1 ≤ j → j < k →
        menu.enabledAt ((menu.selected + j) % menu.item_count) = false) ∧
      0 ≤ (menu.selected + k) % menu.item_count ∧
      (menu.selected + k) % menu.item_count < menu.item_count ∧
      ∀ fuel : Nat, menu.item_count ≤ fuel →
        handle_input fuel KEY_DOWN menu =
          some (0, { menu with selected := (menu.selected + k) % menu.item_count })) ∧
    (∃ k : Nat, 1 ≤ k ∧ (k : Int) ≤ menu.item_count ∧
      menu.enabledAt ((menu.selected - k) % menu.item_count) = true ∧
      (∀ j : Nat, 1 ≤ j → j < k →
        menu.enabledAt ((menu.selected - j) % menu.item_count) = false) ∧
      0 ≤ (menu.selected - k) % menu.item_count ∧
      (menu.selected - k) % menu.item_count < menu.item_count ∧
      ∀ fuel : Nat, menu.item_count ≤ fuel →
        handle_input fuel KEY_UP menu =
          some (0, { menu with selected := (menu.selected - k) % menu.item_count })) := by
  obtain ⟨title, items, n, s⟩ := menu
  simp only at h1 h2 h3 h4 h5 ⊢
  constructor
  · obtain ⟨k, hk, hen, hdis⟩ :=
      exists_first_forward (Menu.mk title items n 0).enabledAt n s h1 h5
    refine ⟨k + 1, by omega, hk, hen, hdis, Int.emod_nonneg _ (by omega),
      Int.emod_lt_of_pos _ (by omega), ?_⟩
    intro fuel hfuel
    have hkf : k < fuel := by
      have : ((k + 1 : Nat) : Int) ≤ (fuel : Int) := le_trans hk hfuel
      omega
    have hmove := moveDown_spec title items n h1 h2 k s fuel h3 h4 hkf hen hdis
    have hkeys : ¬ (KEY_DOWN = KEY_UP) := by decide
    unfold handle_input
    rw [if_neg hkeys, if_pos rfl, hmove]
    rfl
  · obtain ⟨k, hk, hen, hdis⟩ :=
      exists_first_backward (Menu.mk title items n 0).enabledAt n s h1 h5
    refine ⟨k + 1, by omega, hk, hen, hdis, Int.emod_nonneg _ (by omega),
      Int.emod_lt_of_pos _ (by omega), ?_⟩
    intro fuel hfuel
    have hkf : k < fuel := by
      have : ((k + 1 : Nat) : Int) ≤ (fuel : Int) := le_trans hk hfuel
      omega
    have hmove := moveUp_spec title items n h1 h2 k s fuel h3 h4 hkf hen hdis
    unfold handle_input
    rw [if_pos rfl, hmove]
    rfl

/-- Witness for C20: the main menu, whose second item is disabled; the hypotheses of
the theorem hold for it. -/
theorem handle_input_navigation_witness :
    ∃ k : Nat, 1 ≤ k ∧ (k : Int) ≤ 6 ∧
      ∀ fuel : Nat, (6 : Int) ≤ fuel →
        handle_input fuel KEY_DOWN (create_main_menu ⟨none, 'x', 0⟩) =
          some (0, { create_main_menu ⟨none, 'x', 0⟩ with selected := (0 + (k : Int)) % 6 }) :=
  let ⟨k, hk1, hk2, _, _, _, _, hrun⟩ :=
    (handle_input_navigation (create_main_menu ⟨none, 'x', 0⟩) (by decide) (by decide)
      (by decide) (by decide) ⟨0, by decide, by decide, by decide⟩).1
  ⟨k, hk1, hk2, hrun⟩

end TerminalUI
